import Mathlib

/-!
Verification development for the emotion-analysis pipeline (`app/processing.py`,
`app/utils.py`).  The Python pipeline is shallowly embedded: text is `List Char`
(one list per line), tables are lists of structures, weights and intensities are
`ℚ`, and the result of `pd.to_numeric(..., errors := coerce)` is `Option ℚ`.
Pandas group keys are processed in sorted order (groupby sorts its keys) using
an executable insertion sort, and Python `dict` construction is modelled by
`buildDict` (insertion order preserved, later assignments overwrite values).
-/

/-! ## Generic text and container helpers -/

/-- Python `str.split(sep)` for a one-character separator: `""` splits to
`[""]`, separators at the ends produce empty fields. -/
def splitOnChar (sep : Char) : List Char → List (List Char)
  | [] => [[]]
  | c :: rest =>
    if c = sep then [] :: splitOnChar sep rest
    else
      match splitOnChar sep rest with
      | [] => [[c]]
      | p :: ps => (c :: p) :: ps

/-- Inverse of `splitOnChar`: rejoin fields with the separator. -/
def joinChar (sep : Char) : List (List Char) → List Char
  | [] => []
  | [p] => p
  | p :: ps => p ++ sep :: joinChar sep ps

/-- Lexicographic strict order on character lists, comparing code points. -/
def strLtB : List Char → List Char → Bool
  | [], [] => false
  | [], _ :: _ => true
  | _ :: _, [] => false
  | x :: xs, y :: ys =>
    if x.toNat < y.toNat then true
    else if y.toNat < x.toNat then false
    else strLtB xs ys

/-- Non-strict string comparison used to model pandas sorting group keys. -/
def strLeB (a b : String) : Bool := !(strLtB b.data a.data)

/-- Ordering on (second-timestamp, expression) pairs: lexicographic, the way
pandas sorts a two-column group key. -/
def pairLeB (a b : String × String) : Bool :=
  if strLtB a.1.data b.1.data then true
  else if strLtB b.1.data a.1.data then false
  else !(strLtB b.2.data a.2.data)

/-- Insert an element into a list, placing it before the first element `y`
with `le x y`. -/
def insertSorted {α : Type} (le : α → α → Bool) (x : α) : List α → List α
  | [] => [x]
  | y :: ys => if le x y then x :: y :: ys else y :: insertSorted le x ys

/-- Insertion sort with a boolean comparison; executable in the kernel. -/
def sortByB {α : Type} (le : α → α → Bool) (l : List α) : List α :=
  l.foldr (insertSorted le) []

/-- Deduplication pass keeping the first occurrence of each element not yet
seen, in order. -/
def firstDedupAux {α : Type} [DecidableEq α] (seen : List α) : List α → List α
  | [] => []
  | x :: xs =>
    if x ∈ seen then firstDedupAux seen xs else x :: firstDedupAux (x :: seen) xs

/-- Deduplicate keeping the first occurrence of each element, in order —
the order in which Python `dict` / pandas first meet each group key. -/
def firstDedup {α : Type} [DecidableEq α] (l : List α) : List α :=
  firstDedupAux [] l

/-- One assignment `d[k] = v` on a Python dict represented as an association
list: overwrite in place when the key exists, append otherwise. -/
def dictInsert (d : List (String × ℚ)) (k : String) (v : ℚ) : List (String × ℚ) :=
  if d.any (fun p => p.1 = k) then d.map (fun p => if p.1 = k then (k, v) else p)
  else d ++ [(k, v)]

/-- Python `dict(zip(keys, values))`: successive assignments, insertion order
preserved, later values for a repeated key overwrite the earlier ones. -/
def buildDict (pairs : List (String × ℚ)) : List (String × ℚ) :=
  pairs.foldl (fun d p => dictInsert d p.1 p.2) []

/-- Dict lookup `d[k]` returning `none` when the key is absent. -/
def dictFind (d : List (String × ℚ)) (k : String) : Option ℚ :=
  (d.find? (fun p => p.1 = k)).map (·.2)

/-- Dict lookup `d.get(k, v)` with a default. -/
def dictGetD (d : List (String × ℚ)) (k : String) (v : ℚ) : ℚ :=
  (dictFind d k).getD v

/-! ## Sanitizer (`sanitize_dataset`, processing.py lines 40-55)

The line-level phase of `sanitize_dataset`: the first line is kept as header;
each further line is dropped when it contains the substring `",Invalid,"`,
rewritten when it splits into exactly 4 comma-separated fields, and passed
through unchanged otherwise. -/

/-- The substring whose presence marks a row with an `Invalid` expression. -/
def invalidPat : List Char := ",Invalid,".data

/-- Processing of one data line by the sanitizer: `none` means the line is
dropped. A 4-field line `p0,p1,p2,p3` becomes `p0,p1,p2.p3` (the comma used as
a decimal separator is replaced by a period). -/
def processLine (l : List Char) : Option (List Char) :=
  if invalidPat <:+: l then none
  else
    match splitOnChar ',' l with
    | [p0, p1, p2, p3] => some (p0 ++ ',' :: p1 ++ ',' :: p2 ++ '.' :: p3)
    | _ => some l

/-- The sanitizer's whole line-level pass: keep the header, filter-map the
data lines through `processLine`. -/
def sanitizeLines : List (List Char) → List (List Char)
  | [] => []
  | header :: rest => header :: rest.filterMap processLine

/-! ## Task splitter (`split_tasks_data`, processing.py lines 71-160) -/

/-- Python's regex class `\s` restricted to the ASCII whitespace characters. -/
def pySpace (c : Char) : Bool :=
  c = ' ' || c = '\t' || c = '\n' || c = '\r' || c = '\x0b' || c = '\x0c'

/-- The literal run of the delimiter regex: `New level - TASK` followed by the
single space that stands between `TASK` and the captured digits. -/
def litTASK : List Char := "New level - TASK ".data

/-- Strip an expected literal run of characters from the front of a list;
`none` when the list does not start with it. -/
def stripLit : List Char → List Char → Option (List Char)
  | [], r => some r
  | _ :: _, [] => none
  | c :: cs, x :: xs => if c = x then stripLit cs xs else none

/-- Numeric value of a run of decimal digit characters (Python `int` of the
captured group). -/
def digitsToNat (ds : List Char) : Nat :=
  ds.foldl (fun n c => 10 * n + (c.toNat - 48)) 0

/-- Matcher for `re.compile(r'#+\s*New level - TASK (\d+)\s*#+').match(line)`:
anchored at the start of the line only (trailing text is ignored), it returns
the captured integer.  Each greedy run is forced because the follow-up
character classes are disjoint, so no backtracking is needed. -/
def taskPatternMatch (l : List Char) : Option Nat :=
  let h1 := l.takeWhile (fun c => c = '#')
  let r1 := l.dropWhile (fun c => c = '#')
  if h1.isEmpty then none
  else
    let r2 := r1.dropWhile pySpace
    match stripLit litTASK r2 with
    | none => none
    | some r3 =>
      let ds := r3.takeWhile Char.isDigit
      let r4 := r3.dropWhile Char.isDigit
      if ds.isEmpty then none
      else
        match r4.dropWhile pySpace with
        | c :: _ => if c = '#' then some (digitsToNat ds) else none
        | [] => none

/-- Decimal digit rendered as a character. -/
def digitToChar (d : Nat) : Char :=
  match d with
  | 0 => '0' | 1 => '1' | 2 => '2' | 3 => '3' | 4 => '4'
  | 5 => '5' | 6 => '6' | 7 => '7' | 8 => '8' | 9 => '9'
  | _ => '*'

/-- Little-endian decimal digits of `k`, with explicit fuel so that the
definition is structural and kernel-reducible; `fuel = k` is always enough. -/
def revDigitsAux (fuel k : Nat) : List Nat :=
  match fuel with
  | 0 => []
  | fuel + 1 => if k = 0 then [] else (k % 10) :: revDigitsAux fuel (k / 10)

/-- Decimal rendering of a natural number, as Python string formatting
produces it in `f"task_{task_num+1}"`. -/
def natRepr (k : Nat) : String :=
  if k = 0 then "0" else ⟨((revDigitsAux k k).reverse).map digitToChar⟩

/-- Value of a little-endian digit list (used to invert `revDigitsAux`). -/
def ofRevDigits (l : List Nat) : Nat :=
  l.foldr (fun d acc => d + 10 * acc) 0

/-- Indices of the lines on which the task-delimiter regex matches
(`task_boundaries` in `split_tasks_data`). -/
def taskBoundaries (lines : List (List Char)) : List Nat :=
  (List.range lines.length).filter
    (fun i => (taskPatternMatch (lines.getD i [])).isSome)

/-- Captured task numbers of the delimiter lines (`task_numbers`). -/
def boundaryNums (lines : List (List Char)) : List Nat :=
  (taskBoundaries lines).map (fun i => (taskPatternMatch (lines.getD i [])).getD 0)

/-- End line index (exclusive) of the segment that starts at boundary `i`:
the next boundary, or the end of the file. -/
def segEnd (lines : List (List Char)) (bs : List Nat) (i : Nat) : Nat :=
  if i + 1 < bs.length then bs.getD (i + 1) 0 else lines.length

/-- Content of one delimiter-bounded segment: the header prepended to the
segment's lines, with any nested delimiter lines stripped. -/
def taskSegment (lines : List (List Char)) (header : List Char)
    (start stop : Nat) : List (List Char) :=
  (header :: (lines.drop start).take (stop - start)).filter
    (fun l => (taskPatternMatch l).isNone)

/-- Shallow embedding of `split_tasks_data`, at the level of lines of text:
each returned pair is (the lines handed to `pd.read_csv` for that task, the
task name).  With no delimiters the whole file is `task_1`; lines before the
first delimiter form `task_1`; the segment after boundary `i` with captured
number `n` is named `task_(n+1)`, empty segments are skipped, and the segment
whose exported index `n+1` equals 14 is unconditionally dropped. -/
def splitTasksData (lines : List (List Char)) : List (List (List Char) × String) :=
  let header := lines.headD []
  let bs := taskBoundaries lines
  let nums := boundaryNums lines
  if bs.isEmpty then [(lines, "task_1")]
  else
    let firstEnd := bs.headD 0
    let firstPart : List (List (List Char) × String) :=
      if 1 < firstEnd then [(lines.take firstEnd, "task_1")] else []
    firstPart ++ (List.range bs.length).filterMap (fun i =>
      let start := bs.getD i 0 + 1
      let stop := segEnd lines bs i
      if stop ≤ start then none
      else
        let n := nums.getD i 0
        if n + 1 = 14 then none
        else some (taskSegment lines header start stop, "task_" ++ natRepr (n + 1)))

/-! ## Second aggregator (`aggregate_by_second`, processing.py lines 162-213) -/

/-- One row of a task's table after `pd.to_numeric(df['Weight'], errors =
coerce)`: `weight = none` models a Weight value that failed numeric coercion
(NaN). -/
structure RawRow where
  time : String
  expr : String
  weight : Option ℚ
deriving DecidableEq

/-- One row of the aggregated table: unique per (second-timestamp,
expression), weight is the mean of the contributing rows. -/
structure AggRow where
  time : String
  expr : String
  weight : ℚ
deriving DecidableEq

/-- Second-resolution timestamp:
`x.split(".")[0] + " " + x.split(" ")[1]` — the text before the first period,
a space, and the second space-separated token (the AM/PM marker). -/
def timeSecond (t : String) : String :=
  ⟨(splitOnChar '.' t.data).headD [] ++ ' ' :: (splitOnChar ' ' t.data).getD 1 []⟩

/-- Group key of a row in `aggregate_by_second`. -/
def aggKey (r : RawRow) : String × String := (timeSecond r.time, r.expr)

/-- Shallow embedding of `aggregate_by_second`: rows whose Weight failed
coercion are removed (`dropna`), the remaining rows are grouped by
(second-timestamp, expression) — pandas sorts the group keys — and each group
is averaged.  The second component is the number of dropped rows, which the
function reports. -/
def aggregateBySecond (df : List RawRow) : List AggRow × Nat :=
  let kept := df.filter (fun r => r.weight.isSome)
  let dropped := df.length - kept.length
  let keys := sortByB pairLeB (firstDedup (kept.map aggKey))
  (keys.map (fun k =>
      let ws := kept.filterMap (fun r => if aggKey r = k then r.weight else none)
      { time := k.1, expr := k.2, weight := ws.sum / (ws.length : ℚ) }),
    dropped)

/-! ## Emotion detector (`detect_emotions`, processing.py lines 215-298, and
`emotion_primary_patterns`, utils.py) -/

/-- The static emotion configuration from `utils.py`: each emotion maps to an
ordered list of AU groups, each group listing the equivalent variants. -/
def emotionPrimaryPatterns : List (String × List (List String)) :=
  [("happiness",
     [["CheekRaiserL", "CheekRaiserR"],
      ["LipCornerPullerL", "LipCornerPullerR"]]),
   ("sadness",
     [["InnerBrowRaiserL", "InnerBrowRaiserR"],
      ["BrowLowererL", "BrowLowererR"],
      ["LipCornerDepressorL", "LipCornerDepressorR"]]),
   ("surprise",
     [["InnerBrowRaiserL", "InnerBrowRaiserR"],
      ["OuterBrowRaiserL", "OuterBrowRaiserR"],
      ["UpperLidRaiserL", "UpperLidRaiserR"],
      ["JawDrop"]]),
   ("fear",
     [["InnerBrowRaiserL", "InnerBrowRaiserR"],
      ["OuterBrowRaiserL", "OuterBrowRaiserR"],
      ["BrowLowererL", "BrowLowererR"],
      ["UpperLidRaiserL", "UpperLidRaiserR"],
      ["LipStretcherL", "LipStretcherR"],
      ["JawDrop"]]),
   ("anger",
     [["BrowLowererL", "BrowLowererR"],
      ["UpperLidRaiserL", "UpperLidRaiserR"],
      ["LidTightenerL", "LidTightenerR"],
      ["LipTightenerL", "LipTightenerR"],
      ["LipPressorL", "LipPressorR"]]),
   ("disgust",
     [["NoseWrinklerL", "NoseWrinklerR"],
      ["UpperLipRaiserL", "UpperLipRaiserR"],
      ["LipCornerDepressorL", "LipCornerDepressorR"],
      ["LowerLipDepressorL", "LowerLipDepressorR"],
      ["ChinRaiserB", "ChinRaiserT"]])]

/-- The `expression_to_weight` lookup of one Time group:
`dict(zip(group['Expression'], group['Weight']))` over the rows of the
aggregated table whose Time equals `time`. -/
def expressionToWeight (df : List AggRow) (time : String) : String → Option ℚ :=
  fun au =>
    dictFind (buildDict ((df.filter (fun r => r.time = time)).map
      (fun r => (r.expr, r.weight)))) au

/-- An AU group is active when at least one of its variants is present in the
lookup with a weight strictly greater than 0. -/
def groupActive (lookup : String → Option ℚ) (g : List String) : Bool :=
  g.any (fun au =>
    match lookup au with
    | some w => decide (0 < w)
    | none => false)

/-- The running maximum `max_weight_in_group` of the inner loop: updated only
by present variants with weight strictly greater than 0 and greater than the
current maximum. -/
def groupMaxAux (lookup : String → Option ℚ) (m : ℚ) : List String → ℚ
  | [] => m
  | au :: rest =>
    match lookup au with
    | some w =>
      if 0 < w ∧ m < w then groupMaxAux lookup w rest
      else groupMaxAux lookup m rest
    | none => groupMaxAux lookup m rest

/-- Per-group contribution: the maximum starts at 0 as in the source. -/
def groupMax (lookup : String → Option ℚ) (g : List String) : ℚ :=
  groupMaxAux lookup 0 g

/-- The group loop of `detect_emotions` with its early `break`: `none` when
some group is inactive, otherwise the list `group_weights` of per-group
maxima. -/
def rawPath (lookup : String → Option ℚ) : List (List String) → Option (List ℚ)
  | [] => some []
  | g :: gs =>
    if groupActive lookup g then
      (rawPath lookup gs).map (fun ws => groupMax lookup g :: ws)
    else none

/-- Raw intensity of one emotion at one Time: 0 when any group is inactive,
otherwise the arithmetic mean of the per-group maxima. -/
def rawIntensity (lookup : String → Option ℚ) (gs : List (List String)) : ℚ :=
  match rawPath lookup gs with
  | some ws => ws.sum / (ws.length : ℚ)
  | none => 0

/-- The `emotion_intensities` dict: raw intensity of each of the six emotions,
in the pattern table's insertion order. -/
def emotionIntensities (lookup : String → Option ℚ) : List (String × ℚ) :=
  emotionPrimaryPatterns.map (fun ep => (ep.1, rawIntensity lookup ep.2))

/-- Normalization step: divide by the total when it is strictly positive,
otherwise leave the values untouched (no division). -/
def normalizeIntensities (xs : List (String × ℚ)) : List (String × ℚ) :=
  let total := (xs.map (·.2)).sum
  if 0 < total then xs.map (fun p => (p.1, p.2 / total)) else xs

/-- Comparison used for `sorted(..., key = intensity, reverse = True)`:
a stable descending sort by the second component. -/
def descLeB (a b : String × ℚ) : Bool := decide (b.2 ≤ a.2)

/-- One row of the emotion table. -/
structure EmotionRow where
  time : String
  emotion : String
  intensity : ℚ
deriving DecidableEq

/-- The rows `detect_emotions` emits for one Time group: normalized
intensities sorted descending, one row per emotion. -/
def timeResults (df : List AggRow) (time : String) : List EmotionRow :=
  (sortByB descLeB
      (normalizeIntensities (emotionIntensities (expressionToWeight df time)))).map
    (fun p => { time := time, emotion := p.1, intensity := p.2 })

/-- Group keys of `df.groupby('Time')`: the distinct Time values in sorted
order. -/
def timesOf (df : List AggRow) : List String :=
  sortByB strLeB (firstDedup (df.map (fun r => r.time)))

/-- Shallow embedding of `detect_emotions`: concatenation of the per-Time
result blocks. -/
def detectEmotions (df : List AggRow) : List EmotionRow :=
  ((timesOf df).map (timeResults df)).flatten

/-! ## Finalizer (`create_final_dataset`, processing.py lines 300-353) -/

/-- The fixed emotion column list `all_emotions` of `create_final_dataset`. -/
def allEmotions : List String :=
  ["happiness", "sadness", "surprise", "fear", "anger", "disgust"]

/-- Columns of `pd.DataFrame(all_results)` for a list of emotion records:
a DataFrame built from an empty list of records has no columns at all. -/
def emotionFrameColumns (rows : List EmotionRow) : List String :=
  if rows.isEmpty then [] else ["Time", "Emotion", "Intensity"]

/-- One row of the final dataset; `intensities` holds the six per-emotion
numeric columns in `allEmotions` order. -/
structure FinalRow where
  time : String
  dominant : String
  intensities : List (String × ℚ)
deriving DecidableEq

/-- Python `max(d.items(), key = value)`: the first item of maximal value
(later items replace the current best only when strictly greater). -/
def maxPair (d : List (String × ℚ)) : String × ℚ :=
  d.tail.foldl (fun best x => if best.2 < x.2 then x else best) (d.headD ("", 0))

/-- The `emotion_to_intensity` dict of one Time group. -/
def emotionLookup (group : List EmotionRow) : List (String × ℚ) :=
  buildDict (group.map (fun r => (r.emotion, r.intensity)))

/-- The final row produced for one Time: the dominant label is replaced by
`"neutral"` when the dominant intensity is strictly below the threshold, and
the six numeric columns are read from the dict with default 0 regardless. -/
def finalRowOf (rows : List EmotionRow) (threshold : ℚ) (time : String) : FinalRow :=
  let group := rows.filter (fun r => r.time = time)
  let d := emotionLookup group
  let best := maxPair d
  let dom := if best.2 < threshold then "neutral" else best.1
  { time := time, dominant := dom,
    intensities := allEmotions.map (fun e => (e, dictGetD d e 0)) }

/-- Group keys of `emotions_df.groupby('Time')`. -/
def timesOfEmotions (rows : List EmotionRow) : List String :=
  sortByB strLeB (firstDedup (rows.map (fun r => r.time)))

/-- Shallow embedding of `create_final_dataset`.  Grouping by `Time` raises a
`KeyError` when that column is absent from the input frame — which is the case
exactly when `detect_emotions` produced a frame from zero records — modelled
by the `Except.error` branch. -/
def createFinalDataset (rows : List EmotionRow) (threshold : ℚ) :
    Except String (List FinalRow) :=
  if "Time" ∈ emotionFrameColumns rows then
    Except.ok ((timesOfEmotions rows).map (finalRowOf rows threshold))
  else Except.error "KeyError: Time"

/-! ## Batch loop (`process_files`, processing.py lines 568-615) -/

/-- Shallow embedding of the per-file loop of `process_files`: `run` stands
for the whole per-file pipeline (`sanitize_dataset` followed by
`process_file`), returning the file's result paths or the uncaught error.  A
failing file is logged and skipped; its error is not part of the return
value. -/
def processFiles {α β ε : Type} (run : α → Except ε (List β)) (paths : List α) :
    List β :=
  paths.foldl (fun acc p =>
    match run p with
    | Except.ok rs => acc ++ rs
    | Except.error _ => acc) []

/-! ## Spec-side recognizers for the delimiter claim (C4)

`claimDelimMatch` transcribes the claim's words: a task delimiter is a line
CONSISTING of one or more `#`, optional whitespace, the literal
`New level - TASK`, one or more whitespace characters, an integer, optional
whitespace, and one or more `#` — nothing after.  `AmendedTaskDelim` is the
corrected reading forced by the code: the single space after `TASK` is
mandatory and literal, and only a PREFIX of the line has to match. -/

/-- The claim's literal text, without a mandated trailing space. -/
def litText : List Char := "New level - TASK".data

/-- Recognizer written from the claim's words (full-line match, one or more
whitespace characters between the literal text and the integer). -/
def claimDelimMatch (l : List Char) : Option Nat :=
  let h1 := l.takeWhile (fun c => c = '#')
  let r1 := l.dropWhile (fun c => c = '#')
  if h1.isEmpty then none
  else
    let r2 := r1.dropWhile pySpace
    match stripLit litText r2 with
    | none => none
    | some r3 =>
      let w1 := r3.takeWhile pySpace
      let r4 := r3.dropWhile pySpace
      if w1.isEmpty then none
      else
        let ds := r4.takeWhile Char.isDigit
        let r5 := r4.dropWhile Char.isDigit
        if ds.isEmpty then none
        else
          let r6 := r5.dropWhile pySpace
          let h2 := r6.takeWhile (fun c => c = '#')
          let r7 := r6.dropWhile (fun c => c = '#')
          if h2.isEmpty then none
          else if r7.isEmpty then some (digitsToNat ds) else none

/-- Amended shape of a recognized line: it STARTS WITH one or more `#`,
optional whitespace, the literal `New level - TASK` followed by one single
space, one or more digits (the captured integer), optional whitespace and a
`#`; anything may follow. -/
def AmendedTaskDelim (l : List Char) (n : Nat) : Prop :=
  ∃ h1 w1 ds w2 rest,
    l = h1 ++ (w1 ++ (litTASK ++ (ds ++ (w2 ++ '#' :: rest))))
    ∧ h1 ≠ [] ∧ (∀ c ∈ h1, c = '#')
    ∧ (∀ c ∈ w1, pySpace c)
    ∧ ds ≠ [] ∧ (∀ c ∈ ds, c.isDigit)
    ∧ (∀ c ∈ w2, pySpace c)
    ∧ n = digitsToNat ds

/-! ## Shared helper lemmas -/

/-- Inserting keeps the same elements up to permutation. -/
theorem insertSorted_perm {α : Type} (le : α → α → Bool) (x : α) :
    ∀ l : List α, (insertSorted le x l).Perm (x :: l)
  | [] => List.Perm.refl _
  | y :: ys => by
    simp only [insertSorted]
    by_cases h : le x y = true
    · simp [h]
    · simp only [h, if_false]
      exact ((insertSorted_perm le x ys).cons y).trans (List.Perm.swap x y ys)

/-- Insertion sort is a permutation of its input. -/
theorem sortByB_perm {α : Type} (le : α → α → Bool) :
    ∀ l : List α, (sortByB le l).Perm l
  | [] => List.Perm.refl _
  | x :: xs =>
    (insertSorted_perm le x (sortByB le xs)).trans ((sortByB_perm le xs).cons x)

/-- Characterization of the deduplication pass. -/
theorem mem_firstDedupAux {α : Type} [DecidableEq α] :
    ∀ (l : List α) (seen : List α) (a : α),
      a ∈ firstDedupAux seen l ↔ a ∈ l ∧ a ∉ seen
  | [], seen, a => by simp [firstDedupAux]
  | x :: xs, seen, a => by
    simp only [firstDedupAux]
    by_cases hx : x ∈ seen
    · rw [if_pos hx, mem_firstDedupAux xs seen a]
      constructor
      · exact fun ⟨h1, h2⟩ => ⟨List.mem_cons_of_mem x h1, h2⟩
      · rintro ⟨h1, h2⟩
        rcases List.mem_cons.mp h1 with rfl | h1
        · exact absurd hx h2
        · exact ⟨h1, h2⟩
    · rw [if_neg hx]
      by_cases hax : a = x
      · subst hax; simp [hx]
      · simp only [List.mem_cons, hax, false_or]
        rw [mem_firstDedupAux xs (x :: seen) a]
        simp [hax]

/-- Deduplication keeps exactly the elements of the input. -/
theorem mem_firstDedup {α : Type} [DecidableEq α] (l : List α) (a : α) :
    a ∈ firstDedup l ↔ a ∈ l := by
  rw [firstDedup, mem_firstDedupAux]
  simp

/-- Membership in the sorted deduplicated key list is membership in the raw
key list. -/
theorem mem_sortByB_firstDedup {α : Type} [DecidableEq α]
    (le : α → α → Bool) (l : List α) (a : α) :
    a ∈ sortByB le (firstDedup l) ↔ a ∈ l := by
  rw [(sortByB_perm le (firstDedup l)).mem_iff, mem_firstDedup]

/-- Splitting never yields an empty list of fields. -/
theorem splitOnChar_ne_nil (sep : Char) : ∀ l : List Char, splitOnChar sep l ≠ []
  | [] => by simp [splitOnChar]
  | c :: rest => by
    simp only [splitOnChar]
    by_cases h : c = sep
    · simp [h]
    · simp only [h, if_false]
      cases hs : splitOnChar sep rest <;> simp

/-- No field produced by splitting contains the separator. -/
theorem splitOnChar_not_mem (sep : Char) :
    ∀ l : List Char, ∀ p ∈ splitOnChar sep l, sep ∉ p
  | [], p, hp => by
    simp only [splitOnChar, List.mem_singleton] at hp
    simp [hp]
  | c :: rest, p, hp => by
    simp only [splitOnChar] at hp
    by_cases h : c = sep
    · simp only [h, if_true, List.mem_cons] at hp
      rcases hp with rfl | hp
      · simp
      · exact splitOnChar_not_mem sep rest p hp
    · simp only [h, if_false] at hp
      cases hs : splitOnChar sep rest with
      | nil => exact absurd hs (splitOnChar_ne_nil sep rest)
      | cons q qs =>
        rw [hs, List.mem_cons] at hp
        rcases hp with rfl | hp
        · intro hm
          rcases List.mem_cons.mp hm with rfl | hm
          · exact h rfl
          · exact splitOnChar_not_mem sep rest q (hs ▸ List.mem_cons_self q qs) hm
        · exact splitOnChar_not_mem sep rest p (hs ▸ List.mem_cons_of_mem q hp)

/-- A list without the separator splits to the single field it is. -/
theorem splitOnChar_eq_single (sep : Char) :
    ∀ l : List Char, sep ∉ l → splitOnChar sep l = [l]
  | [], _ => rfl
  | c :: rest, h => by
    have hc : ¬ c = sep := fun hcs => h (hcs ▸ List.mem_cons_self c rest)
    have hr := splitOnChar_eq_single sep rest (fun hm => h (List.mem_cons_of_mem c hm))
    simp [splitOnChar, hc, hr]

/-- Splitting a list that starts with a separator-free run. -/
theorem splitOnChar_append (sep : Char) :
    ∀ (a r : List Char), sep ∉ a →
      splitOnChar sep (a ++ sep :: r) = a :: splitOnChar sep r
  | [], r, _ => by simp [splitOnChar]
  | c :: a, r, h => by
    have hc : ¬ c = sep := fun hcs => h (hcs ▸ List.mem_cons_self c a)
    have ha := splitOnChar_append sep a r (fun hm => h (List.mem_cons_of_mem c hm))
    simp [splitOnChar, hc, ha]

/-- Rejoining the fields gives back the original list. -/
theorem joinChar_splitOnChar (sep : Char) :
    ∀ l : List Char, joinChar sep (splitOnChar sep l) = l
  | [] => rfl
  | c :: rest => by
    simp only [splitOnChar]
    by_cases h : c = sep
    · subst h
      simp only [if_true]
      cases hs : splitOnChar c rest with
      | nil => exact absurd hs (splitOnChar_ne_nil c rest)
      | cons q qs =>
        have := joinChar_splitOnChar c rest
        rw [hs] at this
        simp [joinChar, this]
    · simp only [h, if_false]
      cases hs : splitOnChar sep rest with
      | nil => exact absurd hs (splitOnChar_ne_nil sep rest)
      | cons q qs =>
        have := joinChar_splitOnChar sep rest
        rw [hs] at this
        cases qs with
        | nil => simpa [joinChar] using congrArg (c :: ·) this
        | cons q2 qs2 => simpa [joinChar] using congrArg (c :: ·) this

/-- A prefix of `A ++ ch :: B` avoiding `ch` is a prefix of `A`. -/
theorem prefix_of_avoid (pat : List Char) (ch : Char) :
    ∀ A B : List Char, ch ∉ pat → pat <+: A ++ ch :: B → pat <+: A := by
  induction pat with
  | nil => intro A B _ _; exact List.nil_prefix
  | cons p ps ih =>
    intro A B hch hpre
    cases A with
    | nil =>
      rw [List.nil_append, List.cons_prefix_cons] at hpre
      exact absurd (hpre.1 ▸ List.mem_cons_self p ps) (hpre.1 ▸ hch)
    | cons a A2 =>
      rw [List.cons_append, List.cons_prefix_cons] at hpre
      obtain ⟨rfl, htail⟩ := hpre
      have hch2 : ch ∉ ps := fun hm => hch (List.mem_cons_of_mem p hm)
      exact (List.cons_prefix_cons).mpr ⟨rfl, ih A2 B hch2 htail⟩

/-- An occurrence of a pattern inside `A ++ ch :: B` that cannot contain `ch`
lies wholly inside `A` or wholly inside `B`. -/
theorem infix_of_avoid (pat : List Char) (ch : Char) (hch : ch ∉ pat) :
    ∀ A B : List Char, pat <:+: A ++ ch :: B → pat <:+: A ∨ pat <:+: B := by
  intro A
  induction A with
  | nil =>
    intro B hinf
    rw [List.nil_append, List.infix_cons_iff] at hinf
    rcases hinf with hpre | hinf
    · cases pat with
      | nil => exact Or.inl (List.nil_infix)
      | cons p ps =>
        rw [List.cons_prefix_cons] at hpre
        exact absurd (hpre.1 ▸ List.mem_cons_self p ps) (hpre.1 ▸ hch)
    · exact Or.inr hinf
  | cons a A2 ih =>
    intro B hinf
    rw [List.cons_append, List.infix_cons_iff] at hinf
    rcases hinf with hpre | hinf
    · exact Or.inl (prefix_of_avoid pat ch (a :: A2) B hch hpre).isInfix
    · rcases ih B hinf with h | h
      · exact Or.inl (h.trans (List.suffix_cons a A2).isInfix)
      · exact Or.inr h

/-- Counting rows by whether the Weight survived numeric coercion. -/
theorem rawRow_filter_length (df : List RawRow) :
    (df.filter (fun r => r.weight.isSome)).length
      + (df.filter (fun r => r.weight = none)).length = df.length := by
  induction df with
  | nil => rfl
  | cons r rs ih =>
    cases hw : r.weight with
    | none =>
      simp [List.filter_cons, hw]
      omega
    | some v =>
      simp [List.filter_cons, hw]
      omega

/-! ## Claim theorems -/

/-- C10: an aggregated table with no rows (for instance one whose every Weight
value failed numeric coercion and was dropped) makes `detect_emotions` return
a frame with no rows and hence no columns at all, and `create_final_dataset`
applied to that frame fails grouping by the absent `Time` column, so the
file's pipeline run fails instead of producing an empty result. -/
theorem emptyAggregation_fails_finalize (threshold : ℚ) (df : List RawRow)
    (h : ∀ r ∈ df, r.weight = none) :
    (aggregateBySecond df).1 = []
    ∧ detectEmotions [] = []
    ∧ emotionFrameColumns (detectEmotions []) = []
    ∧ createFinalDataset (detectEmotions []) threshold
        = Except.error "KeyError: Time" := by
  have hk : df.filter (fun r => r.weight.isSome) = [] := by
    rw [List.filter_eq_nil_iff]
    intro r hr
    simp [h r hr]
  refine ⟨?_, rfl, rfl, rfl⟩
  simp [aggregateBySecond, hk, sortByB, firstDedup, firstDedupAux]

/-- Witness: a one-row table whose only Weight failed coercion aggregates to
the empty table, and finalizing the empty detection result fails. -/
theorem emptyAggregation_fails_finalize_witness :
    (aggregateBySecond [⟨"12:00:01.000 PM", "AU6", none⟩]).1 = []
    ∧ createFinalDataset (detectEmotions []) (1/4)
        = Except.error "KeyError: Time" := by
  have h := emptyAggregation_fails_finalize (1/4)
    [{ time := "12:00:01.000 PM", expr := "AU6", weight := none }]
    (by
      intro r hr
      rcases List.mem_singleton.mp hr with rfl
      rfl)
  exact ⟨h.1, h.2.2.2⟩

/-- Unfolding of the batch fold of `processFiles`. -/
theorem processFiles_foldl {α β ε : Type} (run : α → Except ε (List β)) :
    ∀ (paths : List α) (acc : List β),
      paths.foldl (fun acc p =>
          match run p with
          | Except.ok rs => acc ++ rs
          | Except.error _ => acc) acc
        = acc ++ (paths.map (fun p =>
            match run p with
            | Except.ok rs => rs
            | Except.error _ => [])).flatten
  | [], acc => by simp
  | p :: ps, acc => by
    simp only [List.foldl_cons, List.map_cons, List.flatten_cons]
    cases hrp : run p with
    | ok rs =>
      rw [processFiles_foldl run ps (acc ++ rs)]
      simp
    | error e =>
      rw [processFiles_foldl run ps acc]
      simp

/-- C9 (amended): an uncaught error while processing one file does not abort
`process_files` — every remaining file is still processed and the return
value is exactly the concatenation of the successful files' result paths, for
any behaviour of the per-file pipeline.  The per-file failures are only
logged inside the loop; they are not part of what the caller receives. -/
theorem processFiles_isolates_failures {α β ε : Type}
    (run : α → Except ε (List β)) (paths : List α) :
    processFiles run paths
      = (paths.map (fun p =>
          match run p with
          | Except.ok rs => rs
          | Except.error _ => [])).flatten := by
  rw [processFiles, processFiles_foldl run paths []]
  simp

/-- C9 counterexample: two batches in which the same file fails with two
different uncaught errors return the identical value — the successful result
path list — so the caller is not given a list of the per-file failures, only
the successful result paths. -/
theorem processFiles_failures_not_returned :
    processFiles (fun p : String =>
        if p = "a.csv" then Except.error "ValueError: x"
        else Except.ok ["results/final/b_final.csv"]) ["a.csv", "b.csv"]
      = processFiles (fun p : String =>
        if p = "a.csv" then Except.error "KeyError: Time"
        else Except.ok ["results/final/b_final.csv"]) ["a.csv", "b.csv"]
    ∧ processFiles (fun p : String =>
        if p = "a.csv" then Except.error "ValueError: x"
        else Except.ok ["results/final/b_final.csv"]) ["a.csv", "b.csv"]
      = ["results/final/b_final.csv"]
    ∧ ((fun p : String =>
        if p = "a.csv" then Except.error "ValueError: x"
        else Except.ok ["results/final/b_final.csv"]) "a.csv"
      ≠ (fun p : String =>
        if p = "a.csv" then Except.error "KeyError: Time"
        else Except.ok ["results/final/b_final.csv"]) "a.csv") := by
  refine ⟨rfl, rfl, fun hc => ?_⟩
  exact absurd (Except.error.inj hc) (by decide)

/-- C8: in `aggregate_by_second` every row whose Weight failed numeric
coercion is treated as missing: the count of such rows is reported as the
dropped-row count, the output table equals the one obtained from the
successfully coerced rows alone (processing continues on them), and each
output weight is the mean of only the coerced weights of its group. -/
theorem aggregate_drops_nonNumeric (df : List RawRow) (a : AggRow)
    (ha : a ∈ (aggregateBySecond df).1) :
    (aggregateBySecond df).2 = (df.filter (fun r => r.weight = none)).length
    ∧ (aggregateBySecond df).1
        = (aggregateBySecond (df.filter (fun r => r.weight.isSome))).1
    ∧ a.weight =
        ((df.filter (fun r => r.weight.isSome)).filterMap
          (fun r => if aggKey r = (a.time, a.expr) then r.weight else none)).sum
        / (((df.filter (fun r => r.weight.isSome)).filterMap
          (fun r => if aggKey r = (a.time, a.expr) then r.weight else none)).length : ℚ) := by
  refine ⟨?_, ?_, ?_⟩
  · have := rawRow_filter_length df
    have hle := List.length_filter_le (fun r => r.weight.isSome) df
    simp only [aggregateBySecond]
    omega
  · have hk : (df.filter (fun r => r.weight.isSome)).filter
        (fun r => r.weight.isSome) = df.filter (fun r => r.weight.isSome) := by
      simp
    simp only [aggregateBySecond, hk]
  · simp only [aggregateBySecond, List.mem_map] at ha
    obtain ⟨k, hk, rfl⟩ := ha
    simp

/-- Witness: a two-row table with one failed coercion reports one dropped row,
via the theorem instantiated at the surviving aggregated row. -/
theorem aggregate_drops_nonNumeric_witness :
    (aggregateBySecond [⟨"12:00:01.100 PM", "AU6", some 1⟩,
      ⟨"12:00:02.000 PM", "AU7", none⟩]).2 = 1 := by
  have ha : (⟨"12:00:01 PM", "AU6", 1⟩ : AggRow) ∈
      (aggregateBySecond [⟨"12:00:01.100 PM", "AU6", some 1⟩,
        ⟨"12:00:02.000 PM", "AU7", none⟩]).1 := by
    simp [aggregateBySecond, aggKey, timeSecond, splitOnChar, firstDedup,
      firstDedupAux, sortByB, insertSorted, AggRow.mk.injEq]
  have h := aggregate_drops_nonNumeric _ _ ha
  rw [h.1]
  decide

/-- A line kept by the sanitizer is a fixed point of the line processing:
a rewritten 4-field line has 3 fields and still no `,Invalid,` substring, and
a passed-through line is unchanged by construction. -/
theorem processLine_idem (l l2 : List Char) (h : processLine l = some l2) :
    processLine l2 = some l2 := by
  by_cases hinf : invalidPat <:+: l
  · simp [processLine, hinf] at h
  · simp only [processLine, if_neg hinf] at h
    split at h
    · next p0 p1 p2 p3 heq =>
      injection h with h
      subst h
      have h0 : ',' ∉ p0 := splitOnChar_not_mem ',' l p0 (by rw [heq]; simp)
      have h1 : ',' ∉ p1 := splitOnChar_not_mem ',' l p1 (by rw [heq]; simp)
      have h2 : ',' ∉ p2 := splitOnChar_not_mem ',' l p2 (by rw [heq]; simp)
      have h3 : ',' ∉ p3 := splitOnChar_not_mem ',' l p3 (by rw [heq]; simp)
      have hsplit2 :
          splitOnChar ',' (p0 ++ ',' :: (p1 ++ ',' :: (p2 ++ '.' :: p3)))
            = [p0, p1, p2 ++ '.' :: p3] := by
        rw [splitOnChar_append ',' p0 (p1 ++ ',' :: (p2 ++ '.' :: p3)) h0,
          splitOnChar_append ',' p1 (p2 ++ '.' :: p3) h1,
          splitOnChar_eq_single ',' (p2 ++ '.' :: p3) (by
            intro hm
            rcases List.mem_append.mp hm with hm | hm
            · exact h2 hm
            · rcases List.mem_cons.mp hm with hm | hm
              · exact absurd hm (by decide)
              · exact h3 hm)]
      have hjoin : l = p0 ++ ',' :: (p1 ++ ',' :: (p2 ++ ',' :: p3)) := by
        have hj := joinChar_splitOnChar ',' l
        rw [heq] at hj
        simpa [joinChar] using hj.symm
      have hinf2 :
          ¬ invalidPat <:+: (p0 ++ ',' :: (p1 ++ ',' :: (p2 ++ '.' :: p3))) := by
        intro hbad
        have hassoc : p0 ++ ',' :: (p1 ++ ',' :: (p2 ++ '.' :: p3))
            = (p0 ++ ',' :: (p1 ++ ',' :: p2)) ++ '.' :: p3 := by simp
        rw [hassoc] at hbad
        rcases infix_of_avoid invalidPat '.' (by decide) _ p3 hbad with hA | hp3
        · have hfull : (p0 ++ ',' :: (p1 ++ ',' :: p2)) ++ ',' :: p3
              = p0 ++ ',' :: (p1 ++ ',' :: (p2 ++ ',' :: p3)) := by simp
          have : invalidPat <:+: l := by
            rw [hjoin, ← hfull]
            exact hA.trans (List.prefix_append _ _).isInfix
          exact hinf this
        · exact h3 (hp3.subset (by decide))
      simp only [List.cons_append, List.append_assoc]
      rw [processLine, if_neg hinf2, hsplit2]
    · injection h with h
      subst h
      simp only [processLine, if_neg hinf]

/-- C7: the Sanitizer is idempotent at the line level: its output contains no
further `,Invalid,` lines and no 4-field lines, so a second pass returns the
identical table. -/
theorem sanitize_idempotent (ls : List (List Char)) :
    sanitizeLines (sanitizeLines ls) = sanitizeLines ls := by
  cases ls with
  | nil => rfl
  | cons header rest =>
    simp only [sanitizeLines]
    rw [List.filterMap_filterMap]
    have hfun : (fun x => (processLine x).bind processLine)
        = fun x => processLine x := by
      funext x
      cases h : processLine x with
      | none => simp
      | some l2 => simp [processLine_idem x l2 h]
    rw [hfun]

/-- C6: the sanitizer keeps the first line as header; a data line is dropped
exactly when it contains the substring `,Invalid,`; a surviving data line
splitting into exactly 4 comma-separated fields is rewritten to
`fields[0],fields[1],fields[2].fields[3]` (so `12:00:01.500 PM,AU6,0,85`
yields the Weight text `0.85`); every other surviving data line passes through
unchanged. -/
theorem sanitize_line_rules (header l : List Char) (ls : List (List Char)) :
    sanitizeLines (header :: ls) = header :: ls.filterMap processLine
    ∧ (processLine l = none ↔ invalidPat <:+: l)
    ∧ (∀ p0 p1 p2 p3, ¬ invalidPat <:+: l →
        splitOnChar ',' l = [p0, p1, p2, p3] →
        processLine l = some (p0 ++ ',' :: p1 ++ ',' :: p2 ++ '.' :: p3))
    ∧ (¬ invalidPat <:+: l → (splitOnChar ',' l).length ≠ 4 →
        processLine l = some l)
    ∧ processLine "12:00:01.500 PM,AU6,0,85".data
        = some "12:00:01.500 PM,AU6,0.85".data := by
  refine ⟨rfl, ?_, ?_, ?_, by decide⟩
  · constructor
    · intro hnone
      by_contra hinf
      simp only [processLine, if_neg hinf] at hnone
      split at hnone <;> simp at hnone
    · intro hinf
      simp [processLine, hinf]
  · intro p0 p1 p2 p3 hinf hsplit
    simp [processLine, if_neg hinf, hsplit]
  · intro hinf hlen
    simp only [processLine, if_neg hinf]
    split
    · next p0 p1 p2 p3 heq =>
      exact absurd (by rw [heq]; rfl) hlen
    · rfl

/-- Witness: the decimal-fixup rule applied through the theorem at the
spec's example line. -/
theorem sanitize_line_rules_witness :
    processLine "12:00:01.500 PM,AU6,0,85".data
      = some ("12:00:01.500 PM".data ++ ',' :: "AU6".data ++ ',' :: "0".data
          ++ '.' :: "85".data) :=
  (sanitize_line_rules [] "12:00:01.500 PM,AU6,0,85".data []).2.2.1
    "12:00:01.500 PM".data "AU6".data "0".data "85".data
    (by decide) (by decide)

/-- Round trip of the fueled decimal digits. -/
theorem ofRevDigits_revDigitsAux :
    ∀ (fuel k : Nat), k ≤ fuel → ofRevDigits (revDigitsAux fuel k) = k := by
  intro fuel
  induction fuel with
  | zero =>
    intro k hk
    have : k = 0 := Nat.le_zero.mp hk
    subst this
    rfl
  | succ fuel ih =>
    intro k hk
    by_cases h0 : k = 0
    · subst h0; rfl
    · have hdiv : k / 10 ≤ fuel := by omega
      simp only [revDigitsAux, h0, if_false, ofRevDigits, List.foldr_cons]
      have := ih (k / 10) hdiv
      rw [ofRevDigits] at this
      rw [this]
      omega

/-- Every fueled decimal digit is below 10. -/
theorem revDigitsAux_lt_ten :
    ∀ (fuel k d : Nat), d ∈ revDigitsAux fuel k → d < 10 := by
  intro fuel
  induction fuel with
  | zero => intro k d hd; simp [revDigitsAux] at hd
  | succ fuel ih =>
    intro k d hd
    by_cases h0 : k = 0
    · simp [revDigitsAux, h0] at hd
    · simp only [revDigitsAux, h0, if_false] at hd
      rcases List.mem_cons.mp hd with rfl | hd
      · exact Nat.mod_lt k (by omega)
      · exact ih (k / 10) d hd

/-- The decimal rendering hits `"14"` only at 14. -/
theorem natRepr_eq_14 (k : Nat) (h : natRepr k = "14") : k = 14 := by
  by_cases h0 : k = 0
  · subst h0
    rw [natRepr] at h
    exact absurd h (by decide)
  · rw [natRepr, if_neg h0] at h
    have hl : ((revDigitsAux k k).reverse).map digitToChar = "14".data := by
      have := congrArg String.data h
      simpa using this
    have hlen : ((revDigitsAux k k).reverse).length = 2 := by
      have := congrArg List.length hl
      simpa using this
    obtain ⟨a, b, hm⟩ : ∃ a b, (revDigitsAux k k).reverse = [a, b] := by
      rcases hrev : (revDigitsAux k k).reverse with _ | ⟨a, rest⟩
      · rw [hrev] at hlen; simp at hlen
      · rcases rest with _ | ⟨b, rest2⟩
        · rw [hrev] at hlen; simp at hlen
        · rcases rest2 with _ | ⟨c, rest3⟩
          · exact ⟨a, b, rfl⟩
          · rw [hrev] at hlen; simp at hlen
    rw [hm] at hl
    simp only [List.map_cons, List.map_nil] at hl
    have ha : digitToChar a = '1' := by
      have := congrArg (fun l => l.headD ' ') hl
      simpa using this
    have hb : digitToChar b = '4' := by
      have := congrArg (fun l => (l.drop 1).headD ' ') hl
      simpa using this
    have haM : a ∈ revDigitsAux k k := List.mem_reverse.mp (hm ▸ by simp)
    have hbM : b ∈ revDigitsAux k k := List.mem_reverse.mp (hm ▸ by simp)
    have ha10 : a < 10 := revDigitsAux_lt_ten k k a haM
    have hb10 : b < 10 := revDigitsAux_lt_ten k k b hbM
    have ha1 : a = 1 := by
      interval_cases a <;> revert ha <;> decide
    have hb4 : b = 4 := by
      interval_cases b <;> revert hb <;> decide
    subst ha1
    subst hb4
    have hdig : revDigitsAux k k = [4, 1] := by
      have := congrArg List.reverse hm
      simpa using this
    have := ofRevDigits_revDigitsAux k k (Nat.le_refl k)
    rw [hdig] at this
    simpa [ofRevDigits] using this.symm

/-- Task names never collide with `task_14` for a different exported index. -/
theorem taskName_ne_task14 (n : Nat) (hne : n + 1 ≠ 14) :
    "task_" ++ natRepr (n + 1) ≠ "task_14" := by
  intro hcontra
  have hdata := congrArg String.data hcontra
  rw [String.data_append] at hdata
  have h14 : "task_14".data = "task_".data ++ "14".data := by decide
  rw [h14] at hdata
  have := List.append_cancel_left hdata
  have hrepr : natRepr (n + 1) = "14" := by
    cases hr : natRepr (n + 1)
    rw [hr] at this
    simp only at this
    exact congrArg String.mk this
  exact hne (natRepr_eq_14 (n + 1) hrepr)

/-- C5: `split_tasks_data` never returns a task named `task_14`: every
delimiter-bounded segment whose captured number `n` has `n + 1 = 14` is
unconditionally dropped, while every other delimiter-bounded segment with at
least one line of data is kept, under its name `task_(n+1)`. -/
theorem splitTasks_no_task14 (lines : List (List Char)) :
    (∀ p ∈ splitTasksData lines, p.2 ≠ "task_14")
    ∧ (∀ i, i < (taskBoundaries lines).length →
        (taskBoundaries lines).getD i 0 + 1 < segEnd lines (taskBoundaries lines) i →
        (boundaryNums lines).getD i 0 + 1 ≠ 14 →
        (taskSegment lines (lines.headD [])
            ((taskBoundaries lines).getD i 0 + 1)
            (segEnd lines (taskBoundaries lines) i),
          "task_" ++ natRepr ((boundaryNums lines).getD i 0 + 1))
          ∈ splitTasksData lines) := by
  constructor
  · intro p hp
    by_cases hbs : (taskBoundaries lines).isEmpty
    · simp only [splitTasksData, hbs, if_true, List.mem_singleton] at hp
      subst hp
      exact (by decide : ("task_1" : String) ≠ "task_14")
    · simp only [splitTasksData, hbs, if_false] at hp
      rcases List.mem_append.mp hp with hp | hp
      · by_cases hfe : 1 < (taskBoundaries lines).headD 0
        · simp only [hfe, if_true, List.mem_singleton] at hp
          subst hp
          exact (by decide : ("task_1" : String) ≠ "task_14")
        · simp only [hfe, if_false, List.not_mem_nil] at hp
      · obtain ⟨i, _, hf⟩ := List.mem_filterMap.mp hp
        by_cases hse : segEnd lines (taskBoundaries lines) i
            ≤ (taskBoundaries lines).getD i 0 + 1
        · rw [if_pos hse] at hf
          simp at hf
        · rw [if_neg hse] at hf
          by_cases h14 : (boundaryNums lines).getD i 0 + 1 = 14
          · rw [if_pos h14] at hf
            simp at hf
          · rw [if_neg h14] at hf
            rw [← Option.some.inj hf]
            exact taskName_ne_task14 _ h14
  · intro i hi hlt hne
    have hbs : ¬ (taskBoundaries lines).isEmpty := by
      intro hcontra
      rw [List.isEmpty_iff] at hcontra
      rw [hcontra] at hi
      simp at hi
    simp only [splitTasksData, hbs, if_false]
    apply List.mem_append_right
    apply List.mem_filterMap.mpr
    refine ⟨i, List.mem_range.mpr hi, ?_⟩
    have hse : ¬ (segEnd lines (taskBoundaries lines) i
        ≤ (taskBoundaries lines).getD i 0 + 1) := by omega
    simp only [hse, if_false, hne, Option.some.injEq]

/-- Witness: a file with a `TASK 1` delimiter keeps its segment as `task_2`,
whose name the theorem certifies differs from `task_14`. -/
theorem splitTasks_no_task14_witness :
    (taskSegment ["Time,Expression,Weight".data, "# New level - TASK 1 #".data,
        "a,b,0.5".data] "Time,Expression,Weight".data 2 3,
      "task_" ++ natRepr 2)
      ∈ splitTasksData ["Time,Expression,Weight".data,
        "# New level - TASK 1 #".data, "a,b,0.5".data]
    ∧ "task_" ++ natRepr 2 ≠ "task_14" := by
  have h := splitTasks_no_task14 ["Time,Expression,Weight".data,
    "# New level - TASK 1 #".data, "a,b,0.5".data]
  have hmem := h.2 0 (by decide) (by decide) (by decide)
  exact ⟨hmem, h.1 _ hmem⟩

/-- The running maximum never decreases. -/
theorem le_groupMaxAux (lookup : String → Option ℚ) :
    ∀ (g : List String) (m : ℚ), m ≤ groupMaxAux lookup m g
  | [], m => le_refl m
  | au :: rest, m => by
    cases hl : lookup au with
    | none =>
      simp only [groupMaxAux, hl]
      exact le_groupMaxAux lookup rest m
    | some w =>
      simp only [groupMaxAux, hl]
      by_cases hc : 0 < w ∧ m < w
      · rw [if_pos hc]
        exact le_of_lt (lt_of_lt_of_le hc.2 (le_groupMaxAux lookup rest w))
      · rw [if_neg hc]
        exact le_groupMaxAux lookup rest m

/-- Every present variant with positive weight is below the running
maximum. -/
theorem weight_le_groupMaxAux (lookup : String → Option ℚ) :
    ∀ (g : List String) (m : ℚ) (au : String) (w : ℚ),
      au ∈ g → lookup au = some w → 0 < w → w ≤ groupMaxAux lookup m g
  | [], m, au, w, hau, _, _ => absurd hau (List.not_mem_nil au)
  | a :: rest, m, au, w, hau, hl, hw => by
    rcases List.mem_cons.mp hau with rfl | hau2
    · simp only [groupMaxAux, hl]
      by_cases hc : 0 < w ∧ m < w
      · rw [if_pos hc]
        exact le_groupMaxAux lookup rest w
      · rw [if_neg hc]
        have hwm : w ≤ m := by
          rcases not_and_or.mp hc with hc | hc
          · exact absurd hw hc
          · exact le_of_not_lt hc
        exact le_trans hwm (le_groupMaxAux lookup rest m)
    · cases hla : lookup a with
      | none =>
        simp only [groupMaxAux, hla]
        exact weight_le_groupMaxAux lookup rest m au w hau2 hl hw
      | some v =>
        simp only [groupMaxAux, hla]
        by_cases hc : 0 < v ∧ m < v
        · rw [if_pos hc]
          exact weight_le_groupMaxAux lookup rest v au w hau2 hl hw
        · rw [if_neg hc]
          exact weight_le_groupMaxAux lookup rest m au w hau2 hl hw

/-- The running maximum is the initial value or a present positive weight. -/
theorem groupMaxAux_attained (lookup : String → Option ℚ) :
    ∀ (g : List String) (m : ℚ),
      groupMaxAux lookup m g = m
      ∨ ∃ au ∈ g, lookup au = some (groupMaxAux lookup m g)
          ∧ 0 < groupMaxAux lookup m g
  | [], m => Or.inl rfl
  | a :: rest, m => by
    cases hla : lookup a with
    | none =>
      simp only [groupMaxAux, hla]
      rcases groupMaxAux_attained lookup rest m with h | ⟨au, hau, h1, h2⟩
      · exact Or.inl h
      · exact Or.inr ⟨au, List.mem_cons_of_mem a hau, h1, h2⟩
    | some v =>
      simp only [groupMaxAux, hla]
      by_cases hc : 0 < v ∧ m < v
      · rw [if_pos hc]
        rcases groupMaxAux_attained lookup rest v with h | ⟨au, hau, h1, h2⟩
        · exact Or.inr ⟨a, List.mem_cons_self a rest, by rw [hla, h], by rw [h]; exact hc.1⟩
        · exact Or.inr ⟨au, List.mem_cons_of_mem a hau, h1, h2⟩
      · rw [if_neg hc]
        rcases groupMaxAux_attained lookup rest m with h | ⟨au, hau, h1, h2⟩
        · exact Or.inl h
        · exact Or.inr ⟨au, List.mem_cons_of_mem a hau, h1, h2⟩

/-- Group activation is the existence of a present variant with strictly
positive weight. -/
theorem groupActive_iff (lookup : String → Option ℚ) (g : List String) :
    groupActive lookup g = true ↔ ∃ au ∈ g, ∃ w, lookup au = some w ∧ 0 < w := by
  rw [groupActive, List.any_eq_true]
  constructor
  · rintro ⟨au, hau, hm⟩
    cases hl : lookup au with
    | none => rw [hl] at hm; simp at hm
    | some w =>
      rw [hl] at hm
      exact ⟨au, hau, w, hl, by simpa using hm⟩
  · rintro ⟨au, hau, w, hl, hw⟩
    refine ⟨au, hau, ?_⟩
    rw [hl]
    simpa using hw

/-- The group maximum starts from 0, so it is nonnegative. -/
theorem groupMax_nonneg (lookup : String → Option ℚ) (g : List String) :
    0 ≤ groupMax lookup g :=
  le_groupMaxAux lookup g 0

/-- When every group is active the loop yields the per-group maxima. -/
theorem rawPath_all_active (lookup : String → Option ℚ) :
    ∀ gs : List (List String), (∀ g ∈ gs, groupActive lookup g = true) →
      rawPath lookup gs = some (gs.map (groupMax lookup))
  | [], _ => rfl
  | g :: gs, h => by
    rw [rawPath, if_pos (h g (List.mem_cons_self g gs))]
    rw [rawPath_all_active lookup gs (fun g2 hg2 => h g2 (List.mem_cons_of_mem g hg2))]
    rfl

/-- An inactive group makes the loop break with no result. -/
theorem rawPath_inactive (lookup : String → Option ℚ) :
    ∀ (gs : List (List String)) (g : List String),
      g ∈ gs → groupActive lookup g = false → rawPath lookup gs = none
  | [], g, hg, _ => absurd hg (List.not_mem_nil g)
  | a :: gs, g, hg, hga => by
    rw [rawPath]
    rcases List.mem_cons.mp hg with rfl | hg2
    · rw [hga]
      simp
    · by_cases ha : groupActive lookup a = true
      · rw [if_pos ha, rawPath_inactive lookup gs g hg2 hga]
        rfl
      · rw [if_neg ha]

/-- Group-weight lists produced by the loop consist of nonnegative values. -/
theorem rawPath_some_nonneg (lookup : String → Option ℚ) :
    ∀ (gs : List (List String)) (ws : List ℚ),
      rawPath lookup gs = some ws → ∀ x ∈ ws, 0 ≤ x
  | [], ws, h, x, hx => by
    rw [rawPath] at h
    injection h with h
    subst h
    simp at hx
  | g :: gs, ws, h, x, hx => by
    rw [rawPath] at h
    by_cases hg : groupActive lookup g = true
    · rw [if_pos hg] at h
      cases hrp : rawPath lookup gs with
      | none => rw [hrp] at h; simp at h
      | some ws2 =>
        rw [hrp] at h
        injection h with h
        subst h
        rcases List.mem_cons.mp hx with rfl | hx2
        · exact groupMax_nonneg lookup g
        · exact rawPath_some_nonneg lookup gs ws2 hrp x hx2
    · rw [if_neg hg] at h
      simp at h

/-- Raw emotion intensities are nonnegative. -/
theorem rawIntensity_nonneg (lookup : String → Option ℚ) (gs : List (List String)) :
    0 ≤ rawIntensity lookup gs := by
  rw [rawIntensity]
  cases hrp : rawPath lookup gs with
  | none => exact le_refl 0
  | some ws =>
    exact div_nonneg (List.sum_nonneg (rawPath_some_nonneg lookup gs ws hrp))
      (Nat.cast_nonneg ws.length)

/-- C1: for every aggregated table and Time, each emotion's raw intensity is
all-or-nothing over its AU groups: if some group has no variant present in
the Time's Expression-to-Weight lookup with positive weight, the raw
intensity is exactly 0; if every group has one, the raw intensity is the
arithmetic mean of the per-group maxima, where each group's contribution is
attained by a present variant with positive weight and dominates every
present variant's weight. -/
theorem detect_raw_allOrNothing (df : List AggRow) (time : String)
    (e : String) (pat : List (List String))
    (hp : (e, pat) ∈ emotionPrimaryPatterns) :
    ((∃ g ∈ pat, ∀ au ∈ g, ∀ w : ℚ,
        expressionToWeight df time au = some w → w ≤ 0) →
      rawIntensity (expressionToWeight df time) pat = 0)
    ∧ ((∀ g ∈ pat, ∃ au ∈ g, ∃ w : ℚ,
        expressionToWeight df time au = some w ∧ 0 < w) →
      rawIntensity (expressionToWeight df time) pat
          = (pat.map (groupMax (expressionToWeight df time))).sum
            / (pat.length : ℚ)
      ∧ ∀ g ∈ pat,
          (∃ au ∈ g, expressionToWeight df time au
              = some (groupMax (expressionToWeight df time) g)
            ∧ 0 < groupMax (expressionToWeight df time) g)
          ∧ (∀ au ∈ g, ∀ w : ℚ, expressionToWeight df time au = some w →
              w ≤ groupMax (expressionToWeight df time) g)) := by
  constructor
  · rintro ⟨g, hg, hinact⟩
    have hga : groupActive (expressionToWeight df time) g = false := by
      cases hb : groupActive (expressionToWeight df time) g
      · rfl
      · obtain ⟨au, hau, w, hl, hw⟩ :=
          (groupActive_iff (expressionToWeight df time) g).mp hb
        exact absurd hw (not_lt.mpr (hinact au hau w hl))
    rw [rawIntensity, rawPath_inactive (expressionToWeight df time) pat g hg hga]
  · intro hact
    have hAll : ∀ g ∈ pat, groupActive (expressionToWeight df time) g = true :=
      fun g hg => (groupActive_iff (expressionToWeight df time) g).mpr (hact g hg)
    have hrp := rawPath_all_active (expressionToWeight df time) pat hAll
    constructor
    · rw [rawIntensity, hrp]
      simp
    · intro g hg
      constructor
      · rcases groupMaxAux_attained (expressionToWeight df time) g 0 with heq | h
        · obtain ⟨au, hau, w, hl, hw⟩ := hact g hg
          have := weight_le_groupMaxAux (expressionToWeight df time) g 0 au w hau hl hw
          rw [groupMax] at *
          rw [heq] at this
          exact absurd (lt_of_lt_of_le hw this) (lt_irrefl 0)
        · exact h
      · intro au hau w hl
        by_cases hw : 0 < w
        · exact weight_le_groupMaxAux (expressionToWeight df time) g 0 au w hau hl hw
        · exact le_trans (not_lt.mp hw) (groupMax_nonneg (expressionToWeight df time) g)

/-- Witness: the all-or-nothing gate at a concrete table where the happiness
pattern's first AU group carries weight 0 while its second carries 9/10 — the
raw happiness intensity is 0. -/
theorem detect_raw_allOrNothing_witness :
    rawIntensity (expressionToWeight
        [⟨"12:00:01 AM", "CheekRaiserL", 0⟩,
          ⟨"12:00:01 AM", "LipCornerPullerL", 9/10⟩] "12:00:01 AM")
      [["CheekRaiserL", "CheekRaiserR"], ["LipCornerPullerL", "LipCornerPullerR"]]
      = 0 := by
  have h := detect_raw_allOrNothing
    [⟨"12:00:01 AM", "CheekRaiserL", 0⟩,
      ⟨"12:00:01 AM", "LipCornerPullerL", 9/10⟩] "12:00:01 AM"
    "happiness"
    [["CheekRaiserL", "CheekRaiserR"], ["LipCornerPullerL", "LipCornerPullerR"]]
    (by simp [emotionPrimaryPatterns])
  apply h.1
  refine ⟨["CheekRaiserL", "CheekRaiserR"], by simp, ?_⟩
  intro au hau w hw
  rcases List.mem_cons.mp hau with rfl | hau2
  · have h0 : expressionToWeight
        [⟨"12:00:01 AM", "CheekRaiserL", 0⟩,
          ⟨"12:00:01 AM", "LipCornerPullerL", 9/10⟩] "12:00:01 AM"
        "CheekRaiserL" = some 0 := by
      simp [expressionToWeight, dictFind, buildDict, dictInsert]
    rw [h0] at hw
    rw [← Option.some.inj hw]
  · have hau3 : au = "CheekRaiserR" := by simpa using hau2
    subst hau3
    have hN : expressionToWeight
        [⟨"12:00:01 AM", "CheekRaiserL", 0⟩,
          ⟨"12:00:01 AM", "LipCornerPullerL", 9/10⟩] "12:00:01 AM"
        "CheekRaiserR" = none := by
      simp [expressionToWeight, dictFind, buildDict, dictInsert]
    rw [hN] at hw
    exact absurd hw (by simp)

/-- Distributing a sum over a common divisor. -/
theorem sum_map_div (l : List ℚ) (t : ℚ) :
    (l.map (fun x => x / t)).sum = l.sum / t := by
  induction l with
  | nil => simp
  | cons x xs ih => simp [ih, add_div]

/-- C2: for every Time group processed by `detect_emotions`, six rows are
emitted; when the sum of the six raw intensities is positive each emitted
intensity is its raw intensity divided by the sum, lies in [0, 1], and the
six emitted intensities sum to 1; when the sum is 0 every emitted intensity
is 0 (the normalization branch does not divide). -/
theorem detect_normalization (df : List AggRow) (time : String)
    (ht : time ∈ timesOf df) :
    (timeResults df time).length = 6
    ∧ (0 < ((emotionIntensities (expressionToWeight df time)).map
          (fun p => p.2)).sum →
        (∀ r ∈ timeResults df time,
          ∃ p ∈ emotionIntensities (expressionToWeight df time),
            r.emotion = p.1
            ∧ r.intensity = p.2 / ((emotionIntensities
                (expressionToWeight df time)).map (fun p => p.2)).sum
            ∧ 0 ≤ r.intensity ∧ r.intensity ≤ 1)
        ∧ ((timeResults df time).map (fun r => r.intensity)).sum = 1)
    ∧ (((emotionIntensities (expressionToWeight df time)).map
          (fun p => p.2)).sum = 0 →
        ∀ r ∈ timeResults df time, r.intensity = 0) := by
  have hXnn : ∀ p ∈ emotionIntensities (expressionToWeight df time), 0 ≤ p.2 := by
    intro p hp
    rw [emotionIntensities] at hp
    obtain ⟨ep, _, rfl⟩ := List.mem_map.mp hp
    exact rawIntensity_nonneg (expressionToWeight df time) ep.2
  have hsumnn : ∀ x ∈ (emotionIntensities (expressionToWeight df time)).map
      (fun p => p.2), 0 ≤ x := by
    intro x hx
    obtain ⟨p2, hp2, rfl⟩ := List.mem_map.mp hx
    exact hXnn p2 hp2
  have hperm := sortByB_perm descLeB
    (normalizeIntensities (emotionIntensities (expressionToWeight df time)))
  have hnlen : (normalizeIntensities (emotionIntensities
      (expressionToWeight df time))).length
      = (emotionIntensities (expressionToWeight df time)).length := by
    simp only [normalizeIntensities]
    split <;> simp
  have hXlen : (emotionIntensities (expressionToWeight df time)).length = 6 := by
    rw [emotionIntensities, List.length_map]
    rfl
  refine ⟨?_, ?_, ?_⟩
  · rw [timeResults, List.length_map, hperm.length_eq, hnlen, hXlen]
  · intro htot
    have hnorm : normalizeIntensities (emotionIntensities (expressionToWeight df time))
        = (emotionIntensities (expressionToWeight df time)).map
            (fun p => (p.1, p.2 / ((emotionIntensities
              (expressionToWeight df time)).map (fun p => p.2)).sum)) := by
      simp only [normalizeIntensities]
      rw [if_pos htot]
    constructor
    · intro r hr
      rw [timeResults] at hr
      obtain ⟨q, hq, rfl⟩ := List.mem_map.mp hr
      have hq2 := hperm.subset hq
      rw [hnorm] at hq2
      obtain ⟨p, hp, rfl⟩ := List.mem_map.mp hq2
      refine ⟨p, hp, rfl, rfl, ?_, ?_⟩
      · exact div_nonneg (hXnn p hp) (le_of_lt htot)
      · exact (div_le_one htot).mpr
          (List.single_le_sum hsumnn _ (List.mem_map_of_mem (fun p => p.2) hp))
    · rw [timeResults, List.map_map]
      have hcomp : ((fun r : EmotionRow => r.intensity)
            ∘ (fun p : String × ℚ =>
              ({ time := time, emotion := p.1, intensity := p.2 } : EmotionRow)))
          = fun p : String × ℚ => p.2 := rfl
      rw [hcomp]
      rw [(hperm.map (fun p : String × ℚ => p.2)).sum_eq]
      rw [hnorm, List.map_map]
      have hcomp2 : ((fun p : String × ℚ => p.2)
            ∘ (fun p : String × ℚ => (p.1, p.2 / ((emotionIntensities
              (expressionToWeight df time)).map (fun p => p.2)).sum)))
          = fun p : String × ℚ => p.2 / ((emotionIntensities
              (expressionToWeight df time)).map (fun p => p.2)).sum := rfl
      rw [hcomp2]
      have hcomp3 : (emotionIntensities (expressionToWeight df time)).map
            (fun p : String × ℚ => p.2 / ((emotionIntensities
              (expressionToWeight df time)).map (fun p => p.2)).sum)
          = ((emotionIntensities (expressionToWeight df time)).map
              (fun p => p.2)).map (fun x => x / ((emotionIntensities
              (expressionToWeight df time)).map (fun p => p.2)).sum) := by
        rw [List.map_map]
        rfl
      rw [hcomp3, sum_map_div]
      exact div_self (ne_of_gt htot)
  · intro htot0
    have hnot : ¬ 0 < ((emotionIntensities (expressionToWeight df time)).map
        (fun p => p.2)).sum := by
      rw [htot0]
      exact lt_irrefl 0
    have hnorm : normalizeIntensities (emotionIntensities (expressionToWeight df time))
        = emotionIntensities (expressionToWeight df time) := by
      simp only [normalizeIntensities]
      rw [if_neg hnot]
    intro r hr
    rw [timeResults] at hr
    obtain ⟨q, hq, rfl⟩ := List.mem_map.mp hr
    have hq2 := hperm.subset hq
    rw [hnorm] at hq2
    have h1 : q.2 ≤ 0 := by
      rw [← htot0]
      exact List.single_le_sum hsumnn _ (List.mem_map_of_mem (fun p => p.2) hq2)
    exact le_antisymm h1 (hXnn q hq2)

/-- Witness: a table activating exactly the happiness pattern with weights 1;
the six emitted intensities for its one Time sum to 1. -/
theorem detect_normalization_witness :
    ((timeResults [⟨"t", "CheekRaiserL", 1⟩, ⟨"t", "LipCornerPullerL", 1⟩] "t").map
      (fun r => r.intensity)).sum = 1 := by
  set L := expressionToWeight
    [⟨"t", "CheekRaiserL", 1⟩, ⟨"t", "LipCornerPullerL", 1⟩] "t" with hLdef
  have hCL : L "CheekRaiserL" = some 1 := by
    rw [hLdef]
    simp [expressionToWeight, dictFind, buildDict, dictInsert]
  have hLL : L "LipCornerPullerL" = some 1 := by
    rw [hLdef]
    simp [expressionToWeight, dictFind, buildDict, dictInsert]
  have hact : ∀ g ∈ [["CheekRaiserL", "CheekRaiserR"],
      ["LipCornerPullerL", "LipCornerPullerR"]], groupActive L g = true := by
    intro g hg
    rcases List.mem_cons.mp hg with rfl | hg2
    · exact (groupActive_iff L _).mpr ⟨"CheekRaiserL", by simp, 1, hCL, one_pos⟩
    · have hgeq : g = ["LipCornerPullerL", "LipCornerPullerR"] := by simpa using hg2
      subst hgeq
      exact (groupActive_iff L _).mpr ⟨"LipCornerPullerL", by simp, 1, hLL, one_pos⟩
  have hrp := rawPath_all_active L _ hact
  have hg1 : (1 : ℚ) ≤ groupMax L ["CheekRaiserL", "CheekRaiserR"] :=
    weight_le_groupMaxAux L _ 0 "CheekRaiserL" 1 (by simp) hCL one_pos
  have hg2 : (1 : ℚ) ≤ groupMax L ["LipCornerPullerL", "LipCornerPullerR"] :=
    weight_le_groupMaxAux L _ 0 "LipCornerPullerL" 1 (by simp) hLL one_pos
  have hraw : rawIntensity L [["CheekRaiserL", "CheekRaiserR"],
      ["LipCornerPullerL", "LipCornerPullerR"]]
      = (groupMax L ["CheekRaiserL", "CheekRaiserR"]
          + groupMax L ["LipCornerPullerL", "LipCornerPullerR"]) / 2 := by
    rw [rawIntensity, hrp]
    simp
  have hpos : 0 < rawIntensity L [["CheekRaiserL", "CheekRaiserR"],
      ["LipCornerPullerL", "LipCornerPullerR"]] := by
    rw [hraw]
    have hsum2 : (0 : ℚ) < groupMax L ["CheekRaiserL", "CheekRaiserR"]
        + groupMax L ["LipCornerPullerL", "LipCornerPullerR"] := by linarith
    exact div_pos hsum2 (by norm_num)
  have hmem : ("happiness", rawIntensity L [["CheekRaiserL", "CheekRaiserR"],
      ["LipCornerPullerL", "LipCornerPullerR"]]) ∈ emotionIntensities L := by
    rw [emotionIntensities]
    exact List.mem_map_of_mem _ (List.mem_cons_self _ _)
  have hnn : ∀ x ∈ (emotionIntensities L).map (fun p => p.2), 0 ≤ x := by
    intro x hx
    obtain ⟨p2, hp2, rfl⟩ := List.mem_map.mp hx
    rw [emotionIntensities] at hp2
    obtain ⟨ep, _, rfl⟩ := List.mem_map.mp hp2
    exact rawIntensity_nonneg L ep.2
  have htot : 0 < ((emotionIntensities L).map (fun p => p.2)).sum := by
    have hle := List.single_le_sum hnn _ (List.mem_map_of_mem (fun p => p.2) hmem)
    calc (0 : ℚ) < _ := hpos
      _ ≤ _ := hle
  exact ((detect_normalization
    [⟨"t", "CheekRaiserL", 1⟩, ⟨"t", "LipCornerPullerL", 1⟩] "t"
    (by decide)).2.1 htot).2

/-- Building a dict from pairs with distinct keys appends them in order. -/
theorem buildDict_go (pairs : List (String × ℚ)) :
    ∀ d : List (String × ℚ),
      (∀ p ∈ pairs, ∀ q ∈ d, q.1 ≠ p.1) → (pairs.map Prod.fst).Nodup →
      pairs.foldl (fun d p => dictInsert d p.1 p.2) d = d ++ pairs := by
  induction pairs with
  | nil => intro d _ _; simp
  | cons p ps ih =>
    intro d hdisj hnd
    rw [List.foldl_cons]
    have hany : d.any (fun q => q.1 = p.1) = false := by
      rw [List.any_eq_false]
      intro q hq
      simpa using hdisj p (List.mem_cons_self p ps) q hq
    have hins : dictInsert d p.1 p.2 = d ++ [p] := by
      rw [dictInsert, if_neg (by rw [hany]; simp)]
    rw [hins]
    have hnd2 : (ps.map Prod.fst).Nodup := (List.nodup_cons.mp (by simpa using hnd)).2
    have hp1 : p.1 ∉ ps.map Prod.fst := (List.nodup_cons.mp (by simpa using hnd)).1
    have hdisj2 : ∀ r ∈ ps, ∀ q ∈ d ++ [p], q.1 ≠ r.1 := by
      intro r hr q hq
      rcases List.mem_append.mp hq with hq | hq
      · exact hdisj r (List.mem_cons_of_mem p hr) q hq
      · rcases List.mem_singleton.mp hq with rfl
        intro hcontra
        exact hp1 (hcontra ▸ List.mem_map_of_mem Prod.fst hr)
    rw [ih (d ++ [p]) hdisj2 hnd2]
    simp

/-- A dict built from pairs with pairwise-distinct keys is those pairs. -/
theorem buildDict_of_nodupKeys (pairs : List (String × ℚ))
    (hnd : (pairs.map Prod.fst).Nodup) : buildDict pairs = pairs := by
  rw [buildDict, buildDict_go pairs [] (by simp) hnd]
  simp

/-- The running best of the Python `max` fold is the start or an element. -/
theorem maxPair_foldl_mem :
    ∀ (l : List (String × ℚ)) (b : String × ℚ),
      l.foldl (fun best x => if best.2 < x.2 then x else best) b ∈ b :: l
  | [], b => List.mem_singleton.mpr rfl
  | x :: l, b => by
    rw [List.foldl_cons]
    have h := maxPair_foldl_mem l (if b.2 < x.2 then x else b)
    rcases List.mem_cons.mp h with heq | hmem
    · rw [heq]
      by_cases hc : b.2 < x.2
      · rw [if_pos hc]; exact List.mem_cons_of_mem b (List.mem_cons_self x l)
      · rw [if_neg hc]; exact List.mem_cons_self b (x :: l)
    · exact List.mem_cons_of_mem b (List.mem_cons_of_mem x hmem)

/-- The start of the Python `max` fold is below its result. -/
theorem maxPair_foldl_le_start :
    ∀ (l : List (String × ℚ)) (b : String × ℚ),
      b.2 ≤ (l.foldl (fun best x => if best.2 < x.2 then x else best) b).2
  | [], b => le_refl _
  | x :: l, b => by
    rw [List.foldl_cons]
    by_cases hc : b.2 < x.2
    · rw [if_pos hc]
      exact le_of_lt (lt_of_lt_of_le hc (maxPair_foldl_le_start l x))
    · rw [if_neg hc]
      exact maxPair_foldl_le_start l b

/-- Every element of the Python `max` fold is below its result. -/
theorem maxPair_foldl_le :
    ∀ (l : List (String × ℚ)) (b : String × ℚ) (x : String × ℚ), x ∈ l →
      x.2 ≤ (l.foldl (fun best x => if best.2 < x.2 then x else best) b).2
  | [], _, x, hx => absurd hx (List.not_mem_nil x)
  | y :: l, b, x, hx => by
    rw [List.foldl_cons]
    rcases List.mem_cons.mp hx with rfl | hx2
    · by_cases hc : b.2 < x.2
      · rw [if_pos hc]
        exact maxPair_foldl_le_start l x
      · rw [if_neg hc]
        exact le_trans (not_lt.mp hc) (maxPair_foldl_le_start l b)
    · exact maxPair_foldl_le l _ x hx2

/-- `maxPair` of a nonempty dict is one of its items. -/
theorem maxPair_mem (d : List (String × ℚ)) (hd : d ≠ []) : maxPair d ∈ d := by
  cases d with
  | nil => exact absurd rfl hd
  | cons h t => exact maxPair_foldl_mem t h

/-- `maxPair` dominates every item of the dict. -/
theorem le_maxPair (d : List (String × ℚ)) (x : String × ℚ) (hx : x ∈ d) :
    x.2 ≤ (maxPair d).2 := by
  cases d with
  | nil => exact absurd hx (List.not_mem_nil x)
  | cons h t =>
    rcases List.mem_cons.mp hx with rfl | hx2
    · exact maxPair_foldl_le_start t x
    · exact maxPair_foldl_le t h x hx2

/-- Finding a key in a keyed map hits that key with its computed value. -/
theorem find?_map_keyed (g : String → ℚ) :
    ∀ (ks : List String) (e : String), e ∈ ks →
      (ks.map (fun k => (k, g k))).find? (fun p => p.1 = e) = some (e, g e)
  | [], e, he => absurd he (List.not_mem_nil e)
  | k :: ks, e, he => by
    rw [List.map_cons]
    by_cases hk : k = e
    · subst hk
      exact List.find?_cons_of_pos _ (by simp)
    · rw [List.find?_cons_of_neg _ (by simpa using hk)]
      exact find?_map_keyed g ks e (by
        rcases List.mem_cons.mp he with rfl | he2
        · exact absurd rfl hk
        · exact he2)

/-- Looking up an emotion present in a group with pairwise-distinct emotions
finds that row's intensity. -/
theorem find?_group_present :
    ∀ (group : List EmotionRow) (e : String),
      (group.map (fun r => r.emotion)).Nodup →
      ∀ r ∈ group, r.emotion = e →
      (group.map (fun r => (r.emotion, r.intensity))).find? (fun p => p.1 = e)
        = some (e, r.intensity)
  | [], _, _, r, hr, _ => absurd hr (List.not_mem_nil r)
  | a :: g, e, hnd, r, hr, hre => by
    rw [List.map_cons] at hnd
    obtain ⟨h1, h2⟩ := List.nodup_cons.mp hnd
    rw [List.map_cons]
    rcases List.mem_cons.mp hr with rfl | hr2
    · rw [List.find?_cons_of_pos _ (by simpa using hre)]
      rw [hre]
    · have hane : ¬ a.emotion = e := by
        intro hcontra
        exact h1 (hcontra ▸ hre ▸ List.mem_map_of_mem (fun r => r.emotion) hr2)
      rw [List.find?_cons_of_neg _ (by simpa using hane)]
      exact find?_group_present g e h2 r hr2 hre

/-- Looking up an emotion absent from a group finds nothing. -/
theorem find?_group_absent :
    ∀ (group : List EmotionRow) (e : String),
      (∀ r ∈ group, r.emotion ≠ e) →
      (group.map (fun r => (r.emotion, r.intensity))).find? (fun p => p.1 = e)
        = none
  | [], _, _ => rfl
  | a :: g, e, habs => by
    rw [List.map_cons,
      List.find?_cons_of_neg _ (by simpa using habs a (List.mem_cons_self a g))]
    exact find?_group_absent g e (fun r hr => habs r (List.mem_cons_of_mem a hr))

/-- The six emotion labels are never the neutral label. -/
theorem mem_allEmotions_ne_neutral : ∀ x ∈ allEmotions, x ≠ "neutral" := by decide

/-- C3: `create_final_dataset` labels a Time `"neutral"` exactly when every
intensity at that Time is strictly below the threshold (equivalently, the
maximum is — a dominant intensity equal to the threshold is NOT relabeled),
and the six per-emotion numeric columns report the input intensities
unchanged, defaulting to 0 for an emotion absent from the lookup, never
zeroed by the neutral relabeling.  The hypotheses are the EmotionRow data
model: emotions drawn from the six labels, one row per emotion per Time. -/
theorem createFinal_threshold (rows : List EmotionRow) (threshold : ℚ)
    (time : String)
    (h6 : ∀ r ∈ rows, r.emotion ∈ allEmotions)
    (hnd : ((rows.filter (fun r => r.time = time)).map (fun r => r.emotion)).Nodup)
    (ht : time ∈ timesOfEmotions rows) :
    createFinalDataset rows threshold
        = Except.ok ((timesOfEmotions rows).map (finalRowOf rows threshold))
    ∧ finalRowOf rows threshold time
        ∈ (timesOfEmotions rows).map (finalRowOf rows threshold)
    ∧ ((finalRowOf rows threshold time).dominant = "neutral"
        ↔ ∀ r ∈ rows.filter (fun r => r.time = time), r.intensity < threshold)
    ∧ (∀ e ∈ allEmotions,
        (∀ r ∈ rows.filter (fun r => r.time = time), r.emotion = e →
          (((finalRowOf rows threshold time).intensities.find?
            (fun p => p.1 = e)).map (fun p => p.2)) = some r.intensity)
        ∧ ((∀ r ∈ rows.filter (fun r => r.time = time), r.emotion ≠ e) →
          (((finalRowOf rows threshold time).intensities.find?
            (fun p => p.1 = e)).map (fun p => p.2)) = some 0)) := by
  obtain ⟨r0, hr0, hr0t⟩ : ∃ r0 ∈ rows, r0.time = time := by
    rw [timesOfEmotions, mem_sortByB_firstDedup] at ht
    obtain ⟨r0, hr0, heq⟩ := List.mem_map.mp ht
    exact ⟨r0, hr0, heq⟩
  have hg0 : r0 ∈ rows.filter (fun r => r.time = time) :=
    List.mem_filter.mpr ⟨hr0, by simpa using hr0t⟩
  have hgne : rows.filter (fun r => r.time = time) ≠ [] := by
    intro hc
    rw [hc] at hg0
    exact (List.not_mem_nil r0) hg0
  have hrowsne : rows ≠ [] := by
    intro hc
    subst hc
    exact (List.not_mem_nil r0) hr0
  have hcol : "Time" ∈ emotionFrameColumns rows := by
    have hne : ¬ rows.isEmpty = true := by
      rw [List.isEmpty_iff]
      exact hrowsne
    rw [emotionFrameColumns, if_neg hne]
    decide
  have hkeys : (((rows.filter (fun r => r.time = time)).map
      (fun r => (r.emotion, r.intensity))).map Prod.fst)
      = (rows.filter (fun r => r.time = time)).map (fun r => r.emotion) := by
    rw [List.map_map]
    rfl
  have hdict : emotionLookup (rows.filter (fun r => r.time = time))
      = (rows.filter (fun r => r.time = time)).map
          (fun r => (r.emotion, r.intensity)) := by
    rw [emotionLookup]
    exact buildDict_of_nodupKeys _ (by rw [hkeys]; exact hnd)
  have hdne : (rows.filter (fun r => r.time = time)).map
      (fun r => (r.emotion, r.intensity)) ≠ [] := by
    simpa using hgne
  have hbestmem := maxPair_mem _ hdne
  obtain ⟨rb, hrb, hrbeq⟩ := List.mem_map.mp hbestmem
  have hle : ∀ r ∈ rows.filter (fun r => r.time = time),
      r.intensity ≤ (maxPair ((rows.filter (fun r => r.time = time)).map
        (fun r => (r.emotion, r.intensity)))).2 := by
    intro r hr
    exact le_maxPair _ _ (List.mem_map_of_mem _ hr)
  refine ⟨?_, ?_, ?_, ?_⟩
  · rw [createFinalDataset, if_pos hcol]
  · exact List.mem_map_of_mem _ ht
  · simp only [finalRowOf, hdict]
    by_cases hb : (maxPair ((rows.filter (fun r => r.time = time)).map
        (fun r => (r.emotion, r.intensity)))).2 < threshold
    · rw [if_pos hb]
      constructor
      · intro _ r hr
        exact lt_of_le_of_lt (hle r hr) hb
      · intro _
        rfl
    · rw [if_neg hb]
      constructor
      · intro hdom
        have hmem6 : rb.emotion ∈ allEmotions := h6 rb (List.mem_filter.mp hrb).1
        have hne2 := mem_allEmotions_ne_neutral _ hmem6
        rw [← hrbeq] at hdom
        exact absurd hdom hne2
      · intro hall
        exfalso
        apply hb
        have hbv : (maxPair ((rows.filter (fun r => r.time = time)).map
            (fun r => (r.emotion, r.intensity)))).2 = rb.intensity := by
          rw [← hrbeq]
        rw [hbv]
        exact hall rb hrb
  · intro e he
    have hfind := find?_map_keyed
      (fun e2 => dictGetD (emotionLookup (rows.filter (fun r => r.time = time))) e2 0)
      allEmotions e he
    constructor
    · intro r hr hre
      simp only [finalRowOf]
      rw [hfind]
      simp only [Option.map_some]
      rw [dictGetD, dictFind, hdict, find?_group_present _ e hnd r hr hre]
      rfl
    · intro habs
      simp only [finalRowOf]
      rw [hfind]
      simp only [Option.map_some]
      rw [dictGetD, dictFind, hdict, find?_group_absent _ e habs]
      rfl

/-- Witness: with intensities 3/10 and 1/10 and threshold exactly 3/10, the
dominant label is not relabeled neutral (strict less-than only), and the
finalizer succeeds on the table. -/
theorem createFinal_threshold_witness :
    (finalRowOf [⟨"t", "happiness", 3/10⟩, ⟨"t", "sadness", 1/10⟩]
        (3/10) "t").dominant ≠ "neutral"
    ∧ createFinalDataset [⟨"t", "happiness", 3/10⟩, ⟨"t", "sadness", 1/10⟩] (3/10)
        = Except.ok ((timesOfEmotions
            [⟨"t", "happiness", 3/10⟩, ⟨"t", "sadness", 1/10⟩]).map
          (finalRowOf [⟨"t", "happiness", 3/10⟩, ⟨"t", "sadness", 1/10⟩] (3/10))) := by
  have h := createFinal_threshold
    [⟨"t", "happiness", 3/10⟩, ⟨"t", "sadness", 1/10⟩] (3/10) "t"
    (by decide) (by decide) (by decide)
  refine ⟨?_, h.1⟩
  intro hdom
  have hall := (h.2.2.1).mp hdom
  have hx := hall ⟨"t", "happiness", 3/10⟩
    (List.mem_filter.mpr ⟨List.mem_cons_self _ _, by decide⟩)
  exact lt_irrefl _ hx

/-- Splitting a maximal run: `takeWhile`/`dropWhile` on a satisfying run
followed by a non-satisfying head. -/
theorem takeWhile_dropWhile_append (p : Char → Bool) :
    ∀ a b : List Char, (∀ c ∈ a, p c = true) →
      (∀ c, b.head? = some c → p c = false) →
      (a ++ b).takeWhile p = a ∧ (a ++ b).dropWhile p = b
  | [], b, _, hb => by
    cases b with
    | nil => exact ⟨rfl, rfl⟩
    | cons c bs =>
      have hc := hb c rfl
      constructor
      · simp [List.takeWhile_cons, hc]
      · simp [List.dropWhile_cons, hc]
  | x :: a, b, ha, hb => by
    have hx := ha x (List.mem_cons_self x a)
    have hrec := takeWhile_dropWhile_append p a b
      (fun c hc => ha c (List.mem_cons_of_mem x hc)) hb
    constructor
    · simp [List.takeWhile_cons, hx, hrec.1]
    · simp [List.dropWhile_cons, hx, hrec.2]

/-- Stripping a literal succeeds exactly on lists starting with it. -/
theorem stripLit_eq_some_iff :
    ∀ (pre l r : List Char), stripLit pre l = some r ↔ l = pre ++ r
  | [], l, r => by simp [stripLit]
  | c :: cs, [], r => by simp [stripLit]
  | c :: cs, x :: xs, r => by
    rw [stripLit]
    by_cases hcx : c = x
    · subst hcx
      rw [if_pos rfl, stripLit_eq_some_iff cs xs r]
      simp
    · rw [if_neg hcx]
      simp only [List.cons_append, List.cons.injEq]
      constructor
      · intro hc; exact absurd hc (by simp)
      · rintro ⟨rfl, _⟩; exact absurd rfl hcx

/-- Enumerating the modelled whitespace characters. -/
theorem pySpace_cases (c : Char) (h : pySpace c = true) :
    c = ' ' ∨ c = '\t' ∨ c = '\n' ∨ c = '\r' ∨ c = '\x0b' ∨ c = '\x0c' := by
  have h2 := h
  simp only [pySpace, Bool.or_eq_true, decide_eq_true_eq] at h2
  tauto

/-- Whitespace is not a `#`. -/
theorem pySpace_not_hash (c : Char) (h : pySpace c = true) :
    decide (c = '#') = false := by
  rcases pySpace_cases c h with rfl | rfl | rfl | rfl | rfl | rfl <;> decide

/-- Whitespace is not a digit. -/
theorem pySpace_not_digit (c : Char) (h : pySpace c = true) :
    c.isDigit = false := by
  rcases pySpace_cases c h with rfl | rfl | rfl | rfl | rfl | rfl <;> decide

/-- A digit is not whitespace. -/
theorem digit_not_pySpace (c : Char) (h : c.isDigit = true) :
    pySpace c = false := by
  cases hps : pySpace c
  · rfl
  · rcases pySpace_cases c hps with rfl | rfl | rfl | rfl | rfl | rfl <;>
      exact absurd h (by decide)

/-- A digit is not a `#`. -/
theorem digit_not_hash (c : Char) (h : c.isDigit = true) :
    decide (c = '#') = false := by
  by_cases hc : c = '#'
  · subst hc
    exact absurd h (by decide)
  · simp [hc]

/-- Head of an appended list whose left part is drawn from a character class
disjoint from `p`. -/
theorem head_append_class (q p : Char → Bool) (w Y : List Char)
    (hw : ∀ c ∈ w, q c = true)
    (hq : ∀ c, q c = true → p c = false)
    (hY : ∀ c, Y.head? = some c → p c = false) :
    ∀ c, (w ++ Y).head? = some c → p c = false := by
  intro c hc
  cases w with
  | nil => exact hY c (by simpa using hc)
  | cons x xs =>
    simp only [List.cons_append, List.head?_cons, Option.some.injEq] at hc
    subst hc
    exact hq _ (hw x (List.mem_cons_self x xs))

/-- Head condition for a list with a known first character. -/
theorem head_cons_class (p : Char → Bool) (z : Char) (rest : List Char)
    (hz : p z = false) :
    ∀ c, (z :: rest).head? = some c → p c = false := by
  intro c hc
  simp only [List.head?_cons, Option.some.injEq] at hc
  subst hc
  exact hz

/-- Forward half of the delimiter characterization: a successful match yields
the amended decomposition. -/
theorem taskPattern_forward (l : List Char) (n : Nat)
    (h : taskPatternMatch l = some n) : AmendedTaskDelim l n := by
  simp only [taskPatternMatch] at h
  by_cases h1e : (l.takeWhile (fun c => c = '#')).isEmpty
  · rw [if_pos h1e] at h
    exact absurd h (by simp)
  · rw [if_neg h1e] at h
    cases hstrip : stripLit litTASK
        ((l.dropWhile (fun c => c = '#')).dropWhile pySpace) with
    | none =>
      rw [hstrip] at h
      exact absurd h (by simp)
    | some r3 =>
      rw [hstrip] at h
      have h2 : (if (r3.takeWhile Char.isDigit).isEmpty = true then none
          else match (r3.dropWhile Char.isDigit).dropWhile pySpace with
            | c :: _ =>
              if c = '#' then some (digitsToNat (r3.takeWhile Char.isDigit))
              else none
            | [] => none) = some n := h
      clear h
      by_cases h2e : (r3.takeWhile Char.isDigit).isEmpty
      · rw [if_pos h2e] at h2
        exact absurd h2 (by simp)
      · rw [if_neg h2e] at h2
        cases hdp : (r3.dropWhile Char.isDigit).dropWhile pySpace with
        | nil =>
          rw [hdp] at h2
          exact absurd h2 (by simp)
        | cons c rest =>
          rw [hdp] at h2
          by_cases hc : c = '#'
          · subst hc
            have h' : some (digitsToNat (r3.takeWhile Char.isDigit)) = some n := by
              rw [← h2]
              rfl
            injection h' with h'
            refine ⟨l.takeWhile (fun c => c = '#'),
              (l.dropWhile (fun c => c = '#')).takeWhile pySpace,
              r3.takeWhile Char.isDigit,
              (r3.dropWhile Char.isDigit).takeWhile pySpace,
              rest, ?_, ?_, ?_, ?_, ?_, ?_, ?_, h'.symm⟩
            · calc l
                  = l.takeWhile (fun c => c = '#')
                    ++ l.dropWhile (fun c => c = '#') :=
                  (List.takeWhile_append_dropWhile _ l).symm
                _ = l.takeWhile (fun c => c = '#')
                    ++ ((l.dropWhile (fun c => c = '#')).takeWhile pySpace
                      ++ (l.dropWhile (fun c => c = '#')).dropWhile pySpace) := by
                  rw [List.takeWhile_append_dropWhile pySpace
                    (l.dropWhile (fun c => c = '#'))]
                _ = l.takeWhile (fun c => c = '#')
                    ++ ((l.dropWhile (fun c => c = '#')).takeWhile pySpace
                      ++ (litTASK ++ r3)) := by
                  rw [(stripLit_eq_some_iff litTASK _ r3).mp hstrip]
                _ = l.takeWhile (fun c => c = '#')
                    ++ ((l.dropWhile (fun c => c = '#')).takeWhile pySpace
                      ++ (litTASK ++ (r3.takeWhile Char.isDigit
                        ++ r3.dropWhile Char.isDigit))) := by
                  rw [List.takeWhile_append_dropWhile Char.isDigit r3]
                _ = l.takeWhile (fun c => c = '#')
                    ++ ((l.dropWhile (fun c => c = '#')).takeWhile pySpace
                      ++ (litTASK ++ (r3.takeWhile Char.isDigit
                        ++ ((r3.dropWhile Char.isDigit).takeWhile pySpace
                          ++ (r3.dropWhile Char.isDigit).dropWhile pySpace)))) := by
                  rw [List.takeWhile_append_dropWhile pySpace
                    (r3.dropWhile Char.isDigit)]
                _ = l.takeWhile (fun c => c = '#')
                    ++ ((l.dropWhile (fun c => c = '#')).takeWhile pySpace
                      ++ (litTASK ++ (r3.takeWhile Char.isDigit
                        ++ ((r3.dropWhile Char.isDigit).takeWhile pySpace
                          ++ '#' :: rest)))) := by
                  rw [hdp]
            · intro hcontra
              rw [← List.isEmpty_iff] at hcontra
              exact h1e hcontra
            · intro c2 hc2
              have := List.mem_takeWhile_imp hc2
              simpa using this
            · intro c2 hc2
              exact List.mem_takeWhile_imp hc2
            · intro hcontra
              rw [← List.isEmpty_iff] at hcontra
              exact h2e hcontra
            · intro c2 hc2
              exact List.mem_takeWhile_imp hc2
            · intro c2 hc2
              exact List.mem_takeWhile_imp hc2
          · have h'' : (if c = '#'
                then some (digitsToNat (r3.takeWhile Char.isDigit))
                else none) = some n := h2
            rw [if_neg hc] at h''
            exact absurd h'' (by simp)

/-- Backward half of the delimiter characterization: the amended
decomposition forces a successful match with the captured number. -/
theorem taskPattern_backward (l : List Char) (n : Nat)
    (h : AmendedTaskDelim l n) : taskPatternMatch l = some n := by
  obtain ⟨h1, w1, ds, w2, rest, hl, hne1, hall1, hsp1, hne2, hdig, hsp2, hn⟩ := h
  have hstep1 := takeWhile_dropWhile_append (fun c => decide (c = '#')) h1
    (w1 ++ (litTASK ++ (ds ++ (w2 ++ '#' :: rest))))
    (fun c hc => by rw [hall1 c hc]; decide)
    (head_append_class pySpace (fun c => decide (c = '#')) w1
      (litTASK ++ (ds ++ (w2 ++ '#' :: rest))) hsp1 pySpace_not_hash
      (by
        intro c hc
        have hcN : ('N' : Char) = c := by simpa [litTASK] using hc
        rw [← hcN]
        decide))
  have hstep2 := takeWhile_dropWhile_append pySpace w1
    (litTASK ++ (ds ++ (w2 ++ '#' :: rest))) hsp1
    (by
      intro c hc
      have hcN : ('N' : Char) = c := by simpa [litTASK] using hc
      rw [← hcN]
      decide)
  have hstrip : stripLit litTASK (litTASK ++ (ds ++ (w2 ++ '#' :: rest)))
      = some (ds ++ (w2 ++ '#' :: rest)) :=
    (stripLit_eq_some_iff _ _ _).mpr rfl
  have hstep3 := takeWhile_dropWhile_append Char.isDigit ds (w2 ++ '#' :: rest)
    hdig
    (head_append_class pySpace Char.isDigit w2 ('#' :: rest) hsp2
      pySpace_not_digit (head_cons_class _ '#' rest (by decide)))
  have hstep4 := takeWhile_dropWhile_append pySpace w2 ('#' :: rest) hsp2
    (head_cons_class _ '#' rest (by decide))
  subst hl
  simp only [taskPatternMatch]
  rw [hstep1.1]
  rw [if_neg (show ¬ (h1.isEmpty = true) from
    fun hc => hne1 (List.isEmpty_iff.mp hc))]
  rw [hstep1.2, hstep2.2, hstrip]
  show (if ((ds ++ (w2 ++ '#' :: rest)).takeWhile Char.isDigit).isEmpty = true
      then none
      else match ((ds ++ (w2 ++ '#' :: rest)).dropWhile Char.isDigit).dropWhile
          pySpace with
        | c :: _ =>
          if c = '#'
          then some (digitsToNat ((ds ++ (w2 ++ '#' :: rest)).takeWhile
            Char.isDigit))
          else none
        | [] => none) = some n
  rw [hstep3.1, hstep3.2, hstep4.2]
  rw [if_neg (show ¬ (ds.isEmpty = true) from
    fun hc => hne2 (List.isEmpty_iff.mp hc))]
  show (if ('#' : Char) = '#' then some (digitsToNat ds) else none) = some n
  rw [if_pos rfl, hn]

/-- C4 counterexample: the delimiter recognizer differs from the claim's
full-line, one-or-more-whitespace reading in both directions — a line with
two spaces after `TASK` satisfies the claim's pattern but is not recognized,
and a line with trailing text after the closing `#` is recognized though the
claim's pattern rejects it. -/
theorem taskPattern_claim_counterexample :
    (claimDelimMatch "## New level - TASK  7 ##".data = some 7
      ∧ taskPatternMatch "## New level - TASK  7 ##".data = none)
    ∧ (claimDelimMatch "#New level - TASK 2# extra".data = none
      ∧ taskPatternMatch "#New level - TASK 2# extra".data = some 2) := by
  decide

/-- C4 (amended): `split_tasks_data` recognizes as a task delimiter exactly
the lines that START WITH one or more `#`, optional whitespace, the literal
`New level - TASK` followed by one single space, an integer, optional
whitespace and a `#` — trailing content after that `#` is allowed — and it
captures the integer as the marker's task number. -/
theorem taskPattern_amended (l : List Char) (n : Nat) :
    taskPatternMatch l = some n ↔ AmendedTaskDelim l n :=
  ⟨taskPattern_forward l n, taskPattern_backward l n⟩
